import Mathlib

/-!
Verification of the bounded shoaling model (Boids-style agent simulation with a
spatial-statistics metrics pipeline).  The definitions below are a shallow
embedding of `alternative_models/shoal_model_bounded.py` and
`data_collectors.py`, together with the behaviour of the third-party routines
those files call (mesa's `ContinuousSpace`, scipy's `KDTree`, `ConvexHull` and
`center_of_mass`, statsmodels' `mad`, numpy's `median` and `linalg.norm`).
Positions, velocities and all statistics are modelled over the exact reals.
Python floats that are not real numbers (the IEEE NaN produced by normalising a
zero vector) and raised exceptions are both modelled by the `Except` monad with
an explicit error value.
-/

open scoped Classical

noncomputable section

namespace Shoal

/-- 2D vectors as pairs of reals, matching the length-2 numpy arrays of the source. -/
abbrev Vec2 := ℝ × ℝ

/-- Boolean comparison of points by their (classical) decidable equality, so that
every use of `List.erase` on points agrees with the list library's lemmas. -/
instance : BEq Vec2 := instBEqOfDecidableEq

/-- The comparison above is lawful: it decides propositional equality. -/
instance : LawfulBEq Vec2 :=
  ⟨fun h => of_decide_eq_true h, fun {a} => decide_eq_true rfl⟩

/-- Componentwise vector addition (numpy `+` on length-2 arrays). -/
def vadd (a b : Vec2) : Vec2 := (a.1 + b.1, a.2 + b.2)

/-- Componentwise vector subtraction (numpy `-`). -/
def vsub (a b : Vec2) : Vec2 := (a.1 - b.1, a.2 - b.2)

/-- Componentwise negation of a vector. -/
def vneg (a : Vec2) : Vec2 := (-a.1, -a.2)

/-- Scalar multiplication of a vector (numpy `vector * scalar`). -/
def vsmul (c : ℝ) (a : Vec2) : Vec2 := (c * a.1, c * a.2)

/-- Division of a vector by a scalar (numpy `vector / scalar`, `vector /= scalar`). -/
def vdiv (a : Vec2) (c : ℝ) : Vec2 := (a.1 / c, a.2 / c)

/-- Euclidean norm of a 2D vector: `np.linalg.norm`. -/
def np_linalg_norm (v : Vec2) : ℝ := Real.sqrt (v.1 ^ 2 + v.2 ^ 2)

/-- Errors surfaced by the embedded Python code.  `attributeError` models a read of a
missing attribute, `outOfBoundsError` the exception raised by mesa's non-toroidal
space for a point outside it, `nanResult` the IEEE NaNs produced by dividing the
zero vector by its zero norm, `qhullError` scipy's error on degenerate hull input,
and `valueError` scipy's error on building a KDTree from an empty array. -/
inductive PyErr where
  | attributeError
  | outOfBoundsError
  | nanResult
  | qhullError
  | valueError
  deriving DecidableEq, Repr

/-- The mesa `ContinuousSpace` built by the model: `x_min = y_min = 0`, `torus=False`. -/
structure Space where
  x_max : ℝ
  y_max : ℝ

/-- mesa `ContinuousSpace.out_of_bounds` for a space with zero minima. -/
def Space.oob (sp : Space) (p : Vec2) : Prop :=
  p.1 < 0 ∨ p.1 > sp.x_max ∨ p.2 < 0 ∨ p.2 > sp.y_max

/-- mesa `ContinuousSpace.get_distance` (non-toroidal): the Euclidean distance. -/
def get_distance (p q : Vec2) : ℝ := np_linalg_norm (vsub q p)

/-- mesa `ContinuousSpace.get_heading` (non-toroidal): the displacement `q - p`. -/
def get_heading (p q : Vec2) : Vec2 := vsub q p

/-- The string tag the data collectors filter on. -/
def fishTag : String := "fish"

/-- A `Fish` agent.  The fields are exactly those assigned in `Fish.__init__`;
`tag` is an `Option` because `Fish.__init__` never assigns a `tag` attribute:
`none` models the absent attribute (reading it raises `AttributeError`). -/
structure Fish where
  unique_id : ℕ
  pos : Vec2
  speed : ℝ
  velocity : Vec2
  vision : ℝ
  separation : ℝ
  cohere_factor : ℝ
  separate_factor : ℝ
  match_factor : ℝ
  tag : Option String

/-- `Fish.__init__`: stores the parameters; no `tag` attribute is created. -/
def Fish.make (unique_id : ℕ) (pos : Vec2) (speed : ℝ) (velocity : Vec2)
    (vision : ℝ) (sep : ℝ) (cohere : ℝ) (sep_w : ℝ) (mtch : ℝ) : Fish :=
  ⟨unique_id, pos, speed, velocity, vision, sep, cohere, sep_w, mtch, none⟩

/-- Python attribute read `agent.tag`: raises `AttributeError` when absent. -/
def getTag (a : Fish) : Except PyErr String :=
  match a.tag with
  | none => Except.error PyErr.attributeError
  | some t => Except.ok t

/-- mesa `ContinuousSpace.get_neighbors(pos, radius, include_center)`: all agents
whose Euclidean distance to `pos` is at most `radius`; with `include_center = false`
agents exactly at `pos` (distance `0`) are dropped, which is how the querying agent
excludes itself. -/
def get_neighbors (agents : List Fish) (p : Vec2) (radius : ℝ)
    (include_center : Bool) : List Fish :=
  agents.filter (fun a =>
    decide (get_distance p a.pos ≤ radius ∧
      (include_center = true ∨ 0 < get_distance p a.pos)))

/-- `Fish.cohere`: accumulate headings toward the neighbors, divide by the count
when the neighbor list is non-empty. -/
def Fish.cohere (f : Fish) (neighbors : List Fish) : Vec2 :=
  let s := neighbors.foldl (fun acc n => vadd acc (get_heading f.pos n.pos)) (0, 0)
  if neighbors.isEmpty then (0, 0) else vdiv s (neighbors.length : ℝ)

/-- `Fish.separate`: subtract the heading toward every neighbor strictly closer
than the separation radius from an initially zero vector. -/
def Fish.separate (f : Fish) (neighbors : List Fish) : Vec2 :=
  neighbors.foldl
    (fun acc other =>
      if get_distance f.pos other.pos < f.separation then
        vsub acc (get_heading f.pos other.pos)
      else acc)
    (0, 0)

/-- `Fish.match_velocity`: accumulate neighbor velocities, divide by the count
when the neighbor list is non-empty. -/
def Fish.match_velocity (f : Fish) (neighbors : List Fish) : Vec2 :=
  let s := neighbors.foldl (fun acc n => vadd acc n.velocity) (0, 0)
  if neighbors.isEmpty then (0, 0) else vdiv s (neighbors.length : ℝ)

/-- The combined update of `Fish.step`:
`velocity + (cohere*cohere_factor + separate*separate_factor + match*match_factor) / 2`. -/
def Fish.combinedVelocity (f : Fish) (neighbors : List Fish) : Vec2 :=
  vadd f.velocity
    (vdiv
      (vadd
        (vadd (vsmul f.cohere_factor (f.cohere neighbors))
          (vsmul f.separate_factor (f.separate neighbors)))
        (vsmul f.match_factor (f.match_velocity neighbors)))
      2)

/-- `self.velocity /= np.linalg.norm(self.velocity)`.  When the norm is zero the
floating-point division produces NaN components; the real-number embedding signals
this as the error `nanResult`. -/
def normalizeVelocity (v : Vec2) : Except PyErr Vec2 :=
  if np_linalg_norm v = 0 then Except.error PyErr.nanResult
  else Except.ok (vdiv v (np_linalg_norm v))

/-- mesa `ContinuousSpace.move_agent` with `torus=False`: raises when the target
point is out of bounds, otherwise the agent's position becomes the target.  There
is no clamping or wraparound in the non-toroidal space. -/
def Space.move_agent (sp : Space) (p : Vec2) : Except PyErr Vec2 :=
  if sp.oob p then Except.error PyErr.outOfBoundsError else Except.ok p

/-- `Fish.step`: query the neighbors within `vision` from the current agent list,
add the weighted rule vectors to the velocity, normalize it, then move by
`velocity * speed`. -/
def Fish.step (f : Fish) (sp : Space) (agents : List Fish) : Except PyErr Fish :=
  match normalizeVelocity (f.combinedVelocity (get_neighbors agents f.pos f.vision false)) with
  | Except.error e => Except.error e
  | Except.ok v =>
    match sp.move_agent (vadd f.pos (vsmul f.speed v)) with
    | Except.error e => Except.error e
    | Except.ok newpos => Except.ok { f with velocity := v, pos := newpos }

/-- mesa `ContinuousSpace.place_agent`: raises when the position is out of bounds
(the `_point_to_cell` bounds check), otherwise records the agent. -/
def place_agent (sp : Space) (p : Vec2) : Except PyErr Unit :=
  if sp.oob p then Except.error PyErr.outOfBoundsError else Except.ok ()

/-- The `ShoalModel` state after construction: the stored parameters, the space,
the agent population of the scheduler, and mesa's `running` flag. -/
structure ShoalModel where
  population : ℤ
  vision : ℝ
  speed : ℝ
  separation : ℝ
  space : Space
  cohere_w : ℝ
  separate_w : ℝ
  match_w : ℝ
  agents : List Fish
  running : Bool

/-- `ShoalModel.make_agents`: create one `Fish` per draw of the random stream
(an initial position and an initial velocity), place it in the space — which
raises if the position is out of bounds — and append it to the scheduler.
The integer argument is the next `unique_id`. -/
def make_agents (sp : Space) (speed vision sep : ℝ) (cohere sep_w mtch : ℝ) :
    ℕ → List (Vec2 × Vec2) → Except PyErr (List Fish)
  | _, [] => Except.ok []
  | i, d :: rest =>
    match place_agent sp d.1 with
    | Except.error e => Except.error e
    | Except.ok _ =>
      match make_agents sp speed vision sep cohere sep_w mtch (i + 1) rest with
      | Except.error e => Except.error e
      | Except.ok others =>
        Except.ok (Fish.make i d.1 speed d.2 vision sep cohere sep_w mtch :: others)

/-- `ShoalModel.__init__`: stores the parameters, builds the space with zero
minima and `torus=False`, and creates the agents.  `random.random() * x_max` and
`np.random.random(2) * 2 - 1` are modelled by the explicit stream `draws` of
(position, velocity) pairs, of which `range(population)` consumes
`population.toNat` entries (a non-positive population iterates zero times).
No parameter is validated anywhere in the constructor. -/
def ShoalModel.init (population : ℤ) (width height speed vision sep : ℝ)
    (cohere sep_w mtch : ℝ) (draws : List (Vec2 × Vec2)) :
    Except PyErr ShoalModel :=
  match make_agents ⟨width, height⟩ speed vision sep cohere sep_w mtch 0
      (draws.take population.toNat) with
  | Except.error e => Except.error e
  | Except.ok agents =>
    Except.ok
      { population := population, vision := vision, speed := speed,
        separation := sep, space := ⟨width, height⟩, cohere_w := cohere,
        separate_w := sep_w, match_w := mtch, agents := agents, running := true }

/-- One pass of mesa's `RandomActivation.step`: the agents are visited in the
order given by the permutation `order` of indices (the shuffled agent list), and
each agent steps against the current, partially updated agent list. -/
def schedule_step (sp : Space) (agents : List Fish) : List ℕ →
    Except PyErr (List Fish)
  | [] => Except.ok agents
  | i :: rest =>
    match agents.get? i with
    | none => schedule_step sp agents rest
    | some f =>
      match Fish.step f sp agents with
      | Except.error e => Except.error e
      | Except.ok f' => schedule_step sp (agents.set i f') rest

/-- The comprehension filter `[... for agent in agents if agent.tag == "fish"]`:
reading `agent.tag` raises `AttributeError` as soon as one agent lacks the
attribute; otherwise the agents tagged `"fish"` are kept in order. -/
def fishOnly : List Fish → Except PyErr (List Fish)
  | [] => Except.ok []
  | a :: rest =>
    match getTag a with
    | Except.error e => Except.error e
    | Except.ok t =>
      match fishOnly rest with
      | Except.error e => Except.error e
      | Except.ok others =>
        if t = fishTag then Except.ok (a :: others) else Except.ok others

/-- `math.atan2(y, x)`. -/
def atan2 (y x : ℝ) : ℝ :=
  if 0 < x then Real.arctan (y / x)
  else if x < 0 then
    (if 0 ≤ y then Real.arctan (y / x) + Real.pi else Real.arctan (y / x) - Real.pi)
  else
    (if 0 < y then Real.pi / 2 else if y < 0 then -(Real.pi / 2) else 0)

/-- `np.median`: sort ascending; the middle element for odd length, the average of
the two middle elements for even length. -/
def npMedian (a : List ℝ) : ℝ :=
  let s := a.insertionSort (fun x y => x ≤ y)
  if a.length % 2 = 1 then s.getD (a.length / 2) 0
  else (s.getD (a.length / 2 - 1) 0 + s.getD (a.length / 2) 0) / 2

/-- The default normalization constant `c` of `statsmodels.robust.scale.mad`,
the 0.75 normal quantile as hard-coded by the library. -/
def mad_c : ℝ := 0.67448975019608171

/-- `statsmodels.robust.scale.mad(a, center=np.median)`:
`np.median(np.abs(a - np.median(a)) / c)`. -/
def sm_mad (a : List ℝ) : ℝ :=
  npMedian (a.map (fun x => |x - npMedian a| / mad_c))

/-- `polar`: collect the velocities of the agents tagged `"fish"`, convert each to
an angle with `math.atan2(y, x)`, and return the statsmodels `mad` of the angles. -/
def polar (agents : List Fish) : Except PyErr ℝ :=
  match fishOnly agents with
  | Except.error e => Except.error e
  | Except.ok fish =>
    Except.ok (sm_mad
      (((fish.map (fun a => a.velocity.2)).zip (fish.map (fun a => a.velocity.1))).map
        (fun yx => atan2 yx.1 yx.2)))

/-- A Python float that is either an ordinary real or the IEEE `+inf` that scipy's
KDTree reports for missing neighbors. -/
inductive PyF where
  | fin (x : ℝ)
  | inf
  deriving DecidableEq

/-- IEEE addition restricted to reals and `+inf`. -/
def PyF.add : PyF → PyF → PyF
  | PyF.fin a, PyF.fin b => PyF.fin (a + b)
  | _, _ => PyF.inf

/-- Python `sum` over such floats. -/
def pySum (l : List PyF) : PyF := l.foldl PyF.add (PyF.fin 0)

/-- IEEE division by a (positive) integer count. -/
def PyF.divNat : PyF → ℕ → PyF
  | PyF.fin a, n => PyF.fin (a / (n : ℝ))
  | PyF.inf, _ => PyF.inf

/-- `scipy.spatial.KDTree(data).query(x, k)`: the `k` smallest Euclidean distances
from `x` to the data points, in ascending order; when fewer than `k` data points
exist, the missing neighbors are reported with infinite distance. -/
def kdtree_query (data : List Vec2) (x : Vec2) (k : ℕ) : List PyF :=
  let d := (data.map (fun p => get_distance x p)).insertionSort (fun a b => a ≤ b)
  let t := d.take k
  t.map PyF.fin ++ List.replicate (k - t.length) PyF.inf

/-- `nnd`: for every agent tagged `"fish"` query the 6 nearest tree entries
(the agent itself at distance 0 included), drop the first, average the rest,
and return the mean of the per-agent averages.  Building a KDTree over an empty
point set raises. -/
def nnd (agents : List Fish) : Except PyErr PyF :=
  match fishOnly agents with
  | Except.error e => Except.error e
  | Except.ok fish =>
    let fishPos := fish.map (fun a => a.pos)
    if fishPos.isEmpty then Except.error PyErr.valueError
    else
      let means := fishPos.map (fun me =>
        let dist := (kdtree_query fishPos me 6).drop 1
        (pySum dist).divNat dist.length)
      Except.ok ((pySum means).divNat means.length)

/-- 2D cross product of `a - o` and `b - o`; positive for a counterclockwise turn. -/
def cross2 (o a b : Vec2) : ℝ :=
  (a.1 - o.1) * (b.2 - o.2) - (a.2 - o.2) * (b.1 - o.1)

/-- Lexicographic order on points, used to sort hull input. -/
def lexLe (p q : Vec2) : Prop := p.1 < q.1 ∨ (p.1 = q.1 ∧ p.2 ≤ q.2)

/-- Pop the chain (kept in reverse order) while the last two points and the new
point fail to make a strict counterclockwise turn. -/
def popChain (p : Vec2) : List Vec2 → List Vec2
  | a :: b :: rest =>
    if cross2 b a p ≤ 0 then popChain p (b :: rest) else a :: b :: rest
  | l => l

/-- Build one hull chain of the monotone-chain algorithm over a sorted point list. -/
def buildChain (pts : List Vec2) : List Vec2 :=
  (pts.foldl (fun acc p => p :: popChain p acc) []).reverse

/-- The convex hull vertices in counterclockwise order (Andrew's monotone chain):
lower chain on the lexicographically sorted points, upper chain on their reverse,
each chain contributing all but its last point. -/
def hullVertices (pts : List Vec2) : List Vec2 :=
  let s := pts.insertionSort lexLe
  (buildChain s).dropLast ++ (buildChain s.reverse).dropLast

/-- `scipy.spatial.ConvexHull`: raises a Qhull error for fewer than 3 points or a
degenerate (all-collinear) point set, otherwise yields the hull vertex cycle. -/
def scipy_ConvexHull (pts : List Vec2) : Except PyErr (List Vec2) :=
  if pts.length < 3 ∨ (∀ p ∈ pts, ∀ q ∈ pts, ∀ r ∈ pts, cross2 p q r = 0) then
    Except.error PyErr.qhullError
  else Except.ok (hullVertices pts)

/-- The consecutive edges of a closed polygon given by its vertex cycle: each
vertex paired with its cyclic successor. -/
def ringEdges (vs : List Vec2) : List (Vec2 × Vec2) := vs.zip (vs.drop 1 ++ vs.take 1)

/-- The `area` attribute of a 2D scipy `ConvexHull`: the total length of the hull
facets, which in two dimensions is the hull's perimeter. -/
def scipy_hull_area (vs : List Vec2) : ℝ :=
  ((ringEdges vs).map (fun e => get_distance e.1 e.2)).sum

/-- The `volume` attribute of a 2D scipy `ConvexHull`: the enclosed area, here via
the shoelace formula over the counterclockwise vertex cycle. -/
def scipy_hull_volume (vs : List Vec2) : ℝ :=
  ((ringEdges vs).map (fun e => e.1.1 * e.2.2 - e.2.1 * e.1.2)).sum / 2

/-- `area`: the positions of the agents tagged `"fish"`, fed to `ConvexHull`, and
the hull's `area` attribute returned. -/
def area (agents : List Fish) : Except PyErr ℝ :=
  match fishOnly agents with
  | Except.error e => Except.error e
  | Except.ok fish =>
    match scipy_ConvexHull (fish.map (fun a => a.pos)) with
    | Except.error e => Except.error e
    | Except.ok hull => Except.ok (scipy_hull_area hull)

/-- Helper for `scipy.ndimage.center_of_mass`: sum of row masses weighted by the
row index. -/
def weightedIdxSum : ℕ → List Vec2 → ℝ
  | _, [] => 0
  | i, r :: rest => (i : ℝ) * (r.1 + r.2) + weightedIdxSum (i + 1) rest

/-- `scipy.ndimage.center_of_mass` applied to the `n × 2` array of positions: the
array entries are treated as masses sitting at their integer index coordinates,
so the result is `(Σ_i i·(xᵢ + yᵢ), Σ_i yᵢ) / Σ_i (xᵢ + yᵢ)` — a point in index
space, not in the plane of the positions. -/
def scipy_center_of_mass (rows : List Vec2) : Vec2 :=
  let total := (rows.map (fun r => r.1 + r.2)).sum
  (weightedIdxSum 0 rows / total, ((rows.map (fun r => r.2)).sum) / total)

/-- `center_mass`: `scipy.ndimage.center_of_mass` of the positions of the agents
tagged `"fish"`. -/
def center_mass (agents : List Fish) : Except PyErr Vec2 :=
  match fishOnly agents with
  | Except.error e => Except.error e
  | Except.ok fish => Except.ok (scipy_center_of_mass (fish.map (fun a => a.pos)))

/-- Sum of a list of vectors (claim-side helper). -/
def vsum (l : List Vec2) : Vec2 := l.foldr vadd (0, 0)

/-- Arithmetic mean of a list of vectors, zero for the empty list (claim side). -/
def vmean (l : List Vec2) : Vec2 :=
  if l = [] then (0, 0) else vdiv (vsum l) (l.length : ℝ)

/-- The combined velocity update exactly as the specification words it: the old
velocity plus half the weighted sum of the mean heading to the neighbors, the
negated sum of headings to the strictly-closer-than-`separation` neighbors, and
the mean neighbor velocity. -/
def specCombined (f : Fish) (neighbors : List Fish) : Vec2 :=
  vadd f.velocity
    (vdiv
      (vadd
        (vadd (vsmul f.cohere_factor (vmean (neighbors.map (fun n => get_heading f.pos n.pos))))
          (vsmul f.separate_factor
            (vneg (vsum ((neighbors.filter
              (fun n => decide (get_distance f.pos n.pos < f.separation))).map
                (fun n => get_heading f.pos n.pos))))))
        (vsmul f.match_factor (vmean (neighbors.map (fun n => n.velocity)))))
      2)

/-- Clamping a point to the rectangle `[0, x_max] × [0, y_max]`, as the
specification demands for the movement policy (modelled from the spec; the source
has no clamping). -/
def clampVec (sp : Space) (p : Vec2) : Vec2 :=
  (max 0 (min p.1 sp.x_max), max 0 (min p.2 sp.y_max))

/-- The unscaled median absolute deviation from the median, as the specification
words the polarization statistic. -/
def unscaled_mad (a : List ℝ) : ℝ :=
  npMedian (a.map (fun x => |x - npMedian a|))

/-- The nearest-neighbour statistic as the specification words it: the mean over
agents of the average distance to the agent's five nearest other agents. -/
def nnd_spec (pts : List Vec2) : ℝ :=
  ((pts.map (fun me =>
    (((((pts.erase me).map (get_distance me)).insertionSort
      (fun a b => a ≤ b)).take 5).sum) / 5)).sum) / (pts.length : ℝ)

/-- The centroid (arithmetic mean position) of the agents tagged `"fish"`, as the
specification words the reference value for the center-of-mass metric. -/
def spec_centroid (agents : List Fish) : Except PyErr Vec2 :=
  match fishOnly agents with
  | Except.error e => Except.error e
  | Except.ok fish =>
    Except.ok
      ((fish.map (fun a => a.pos.1)).sum / (fish.length : ℝ),
        (fish.map (fun a => a.pos.2)).sum / (fish.length : ℝ))

/-- The enclosed area of the convex hull of the `"fish"` positions, as the
specification words the shoal-extent metric. -/
def enclosed_area (agents : List Fish) : Except PyErr ℝ :=
  match fishOnly agents with
  | Except.error e => Except.error e
  | Except.ok fish =>
    match scipy_ConvexHull (fish.map (fun a => a.pos)) with
    | Except.error e => Except.error e
    | Except.ok hull => Except.ok (scipy_hull_volume hull)

/-! ### Helper lemmas about construction -/

/-- Every agent produced by `make_agents` lacks the `tag` attribute. -/
theorem make_agents_tags (sp : Space) (s v se c sw mw : ℝ) :
    ∀ (draws : List (Vec2 × Vec2)) (i : ℕ) (l : List Fish),
      make_agents sp s v se c sw mw i draws = Except.ok l → ∀ a ∈ l, a.tag = none := by
  intro draws
  induction draws with
  | nil =>
    intro i l h a ha
    simp only [make_agents, Except.ok.injEq] at h
    subst h
    simp at ha
  | cons d rest ih =>
    intro i l h a ha
    simp only [make_agents] at h
    cases hp : place_agent sp d.1 with
    | error e => rw [hp] at h; simp at h
    | ok u =>
      rw [hp] at h
      cases hr : make_agents sp s v se c sw mw (i + 1) rest with
      | error e => rw [hr] at h; simp at h
      | ok others =>
        rw [hr] at h
        simp only [Except.ok.injEq] at h
        subst h
        rcases List.mem_cons.mp ha with h1 | h2
        · subst h1; rfl
        · exact ih (i + 1) others hr a h2

/-- With every drawn position inside the space, `make_agents` succeeds and yields
one agent per draw. -/
theorem make_agents_ok (sp : Space) (s v se c sw mw : ℝ) :
    ∀ (draws : List (Vec2 × Vec2)) (i : ℕ),
      (∀ d ∈ draws, ¬ sp.oob d.1) →
      ∃ l, make_agents sp s v se c sw mw i draws = Except.ok l ∧
        l.length = draws.length := by
  intro draws
  induction draws with
  | nil => intro i _; exact ⟨[], rfl, rfl⟩
  | cons d rest ih =>
    intro i h
    obtain ⟨l, hl, hlen⟩ := ih (i + 1) (fun x hx => h x (List.mem_cons_of_mem d hx))
    refine ⟨Fish.make i d.1 s d.2 v se c sw mw :: l, ?_, by simp [hlen]⟩
    simp only [make_agents]
    rw [show place_agent sp d.1 = Except.ok () from by
      rw [place_agent, if_neg (h d (List.mem_cons_self d rest))]]
    rw [hl]

/-- The tag filter raises as soon as the agent list is non-empty and untagged. -/
theorem fishOnly_error_of_untagged (ags : List Fish)
    (h1 : ∀ a ∈ ags, a.tag = none) (h2 : ags ≠ []) :
    fishOnly ags = Except.error PyErr.attributeError := by
  cases ags with
  | nil => exact absurd rfl h2
  | cons a rest =>
    have ha : a.tag = none := h1 a (by simp)
    simp [fishOnly, getTag, ha]

/-! ### C10 — construction performs no validation -/

/-- C10 counterexample: calling the constructor with non-positive population,
speed, vision and separation is not rejected; it returns a fully built model in
the `Ready` state (`running = true`). -/
theorem C10_cex_construction_accepted :
    ShoalModel.init 0 100 100 (-1) (-2) (-1) (1/40) (1/4) (1/25) [] =
      Except.ok
        { population := 0, vision := -2, speed := -1, separation := -1,
          space := ⟨100, 100⟩, cohere_w := 1/40, separate_w := 1/4,
          match_w := 1/25, agents := [], running := true } := rfl

/-- C10 (amended): the constructor validates no parameter.  Whenever every drawn
initial position lies inside the space — in particular for non-positive
population, speed, vision or separation — construction succeeds and produces a
model in the `Ready` state with `min population draws` agents. -/
theorem C10_construction_never_validated
    (population : ℤ) (width height speed vision sep cohere sep_w mtch : ℝ)
    (draws : List (Vec2 × Vec2))
    (h : ∀ d ∈ draws, ¬ Space.oob ⟨width, height⟩ d.1) :
    ∃ m, ShoalModel.init population width height speed vision sep cohere sep_w
        mtch draws = Except.ok m ∧ m.running = true ∧
        m.agents.length = min population.toNat draws.length := by
  obtain ⟨l, hl, hlen⟩ := make_agents_ok ⟨width, height⟩ speed vision sep cohere
    sep_w mtch (draws.take population.toNat) 0
    (fun d hd => h d (List.take_subset _ _ hd))
  refine ⟨⟨population, vision, speed, sep, ⟨width, height⟩, cohere, sep_w, mtch,
    l, true⟩, ?_, rfl, ?_⟩
  · simp only [ShoalModel.init]; rw [hl]
  · simp [hlen, List.length_take]

/-- Witness for C10: a concrete construction with negative population, speed,
vision and separation succeeds. -/
theorem C10_witness :
    ∃ m, ShoalModel.init (-3) 100 100 (-1) (-2) (-5) (1/40) (1/4) (1/25) [] =
        Except.ok m ∧ m.running = true ∧
        m.agents.length = min (Int.toNat (-3)) (List.length ([] : List (Vec2 × Vec2))) :=
  C10_construction_never_validated (-3) 100 100 (-1) (-2) (-5) (1/40) (1/4) (1/25)
    [] (by intro d hd; simp at hd)

/-! ### C4 — the collectors raise on untagged agents -/

/-- C4: for every model built by `ShoalModel` with at least one agent, calling the
polarization collector or the nearest-neighbour-distance collector raises an
attribute error: both select agents by `agent.tag == "fish"`, and `Fish.__init__`
never creates a `tag` attribute. -/
theorem C4_polar_nnd_attributeError
    (population : ℤ) (width height speed vision sep cohere sep_w mtch : ℝ)
    (draws : List (Vec2 × Vec2)) (m : ShoalModel)
    (hinit : ShoalModel.init population width height speed vision sep cohere
      sep_w mtch draws = Except.ok m)
    (hne : m.agents ≠ []) :
    polar m.agents = Except.error PyErr.attributeError ∧
      nnd m.agents = Except.error PyErr.attributeError := by
  have htags : ∀ a ∈ m.agents, a.tag = none := by
    simp only [ShoalModel.init] at hinit
    cases hr : make_agents ⟨width, height⟩ speed vision sep cohere sep_w mtch 0
        (draws.take population.toNat) with
    | error e => rw [hr] at hinit; simp at hinit
    | ok l =>
      rw [hr] at hinit
      simp only [Except.ok.injEq] at hinit
      have hag : m.agents = l := by rw [← hinit]
      rw [hag]
      exact make_agents_tags _ _ _ _ _ _ _ _ _ _ hr
  have hf := fishOnly_error_of_untagged m.agents htags hne
  constructor
  · simp [polar, hf]
  · simp [nnd, hf]

/-- Witness for C4 at a concrete one-fish model. -/
theorem C4_witness :
    polar [Fish.make 0 (50, 50) 1 (1, 0) 10 2 (1/40) (1/4) (1/25)] =
        Except.error PyErr.attributeError ∧
      nnd [Fish.make 0 (50, 50) 1 (1, 0) 10 2 (1/40) (1/4) (1/25)] =
        Except.error PyErr.attributeError :=
  C4_polar_nnd_attributeError 1 100 100 1 10 2 (1/40) (1/4) (1/25)
    [((50, 50), (1, 0))]
    ⟨1, 10, 1, 2, ⟨100, 100⟩, 1/40, 1/4, 1/25,
      [Fish.make 0 (50, 50) 1 (1, 0) 10 2 (1/40) (1/4) (1/25)], true⟩
    (by norm_num [ShoalModel.init, make_agents, place_agent, Space.oob])
    (by simp)

/-! ### C6 — the center-of-mass metric is not the centroid -/

/-- A fish carrying the `"fish"` tag, as the non-core models of the repository
create them; used to exercise the metric pipeline past the tag filter. -/
def taggedFish (i : ℕ) (p : Vec2) (v : Vec2) : Fish :=
  ⟨i, p, 1, v, 10, 2, 1/40, 1/4, 1/25, some fishTag⟩

/-- C6: the center-of-mass metric does not return the centroid.  For the two fish
at `(0,0)` and `(2,2)` the metric returns `(1, 1/2)` — `scipy.ndimage.center_of_mass`
treats the coordinate array as masses over its integer indices — while the
centroid of the positions is `(1, 1)`. -/
theorem C6_center_mass_not_centroid :
    center_mass [taggedFish 0 (0, 0) (1, 0), taggedFish 1 (2, 2) (1, 0)] =
        Except.ok (1, 1/2) ∧
      spec_centroid [taggedFish 0 (0, 0) (1, 0), taggedFish 1 (2, 2) (1, 0)] =
        Except.ok (1, 1) ∧
      ((1 : ℝ), (1/2 : ℝ)) ≠ ((1 : ℝ), (1 : ℝ)) := by
  have hf : fishOnly [taggedFish 0 (0, 0) (1, 0), taggedFish 1 (2, 2) (1, 0)] =
      Except.ok [taggedFish 0 (0, 0) (1, 0), taggedFish 1 (2, 2) (1, 0)] := by
    simp [fishOnly, getTag, taggedFish]
  refine ⟨?_, ?_, ?_⟩
  · rw [center_mass, hf]
    norm_num [scipy_center_of_mass, weightedIdxSum, taggedFish, Prod.ext_iff]
  · rw [spec_centroid, hf]
    norm_num [taggedFish, Prod.ext_iff]
  · simp only [ne_eq, Prod.mk.injEq, not_and]
    intro _
    norm_num

/-! ### C5 — zero-magnitude combined update has no fallback -/

/-- Two fish whose separation repulsion exactly cancels the leader's velocity. -/
def degA : Fish := ⟨0, (50, 50), 1, (1, 0), 10, 2, 0, 2, 0, none⟩

/-- The neighbor one unit to the right of `degA`. -/
def degB : Fish := ⟨1, (51, 50), 1, (1, 0), 10, 2, 0, 2, 0, none⟩

/-- C5: when the combined update is the zero vector the step does not fall back to
the previous heading — the normalization divides by a zero norm (IEEE NaNs),
modelled as the `nanResult` failure.  The velocity after the step is neither the
previous unit heading nor any unit vector. -/
theorem C5_zero_update_nan :
    Fish.step degA ⟨100, 100⟩ [degA, degB] = Except.error PyErr.nanResult := by
  have hn : get_neighbors [degA, degB] degA.pos degA.vision false = [degB] := by
    norm_num [get_neighbors, get_distance, np_linalg_norm, vsub, degA, degB,
      Real.sqrt_zero, Real.sqrt_one, List.filter]
  have hc : Fish.combinedVelocity degA [degB] = (0, 0) := by
    norm_num [Fish.combinedVelocity, Fish.cohere, Fish.separate, Fish.match_velocity,
      vadd, vsub, vdiv, vsmul, get_heading, get_distance, np_linalg_norm,
      degA, degB, Real.sqrt_one, Prod.ext_iff]
  rw [Fish.step, hn, hc]
  norm_num [normalizeVelocity, np_linalg_norm, Real.sqrt_zero]

/-! ### C3 — out-of-domain moves raise instead of clamping -/

/-- A fish half a unit below the top wall, heading straight up. -/
def edgeFish : Fish := ⟨0, (50, 99.5), 1, (0, 1), 10, 2, 1/40, 1/4, 1/25, none⟩

/-- C3 counterexample: an agent whose target point leaves the domain does not end
at the clamped boundary position — the move raises the out-of-bounds exception of
the non-toroidal space, so no post-step position exists, while the claimed
clamped position would be `(50, 100)`. -/
theorem C3_cex_no_clamping :
    Fish.step edgeFish ⟨100, 100⟩ [edgeFish] = Except.error PyErr.outOfBoundsError ∧
      clampVec ⟨100, 100⟩ (vadd edgeFish.pos (vsmul edgeFish.speed (0, 1))) =
        (50, 100) := by
  constructor
  · have hn : get_neighbors [edgeFish] edgeFish.pos edgeFish.vision false = [] := by
      norm_num [get_neighbors, get_distance, np_linalg_norm, vsub, edgeFish,
        Real.sqrt_zero, List.filter]
    have hc : Fish.combinedVelocity edgeFish [] = (0, 1) := by
      norm_num [Fish.combinedVelocity, Fish.cohere, Fish.separate,
        Fish.match_velocity, vadd, vdiv, vsmul, edgeFish, Prod.ext_iff]
    rw [Fish.step, hn, hc]
    norm_num [normalizeVelocity, np_linalg_norm, Real.sqrt_one, Space.move_agent,
      Space.oob, vadd, vsmul, vdiv, edgeFish]
  · norm_num [clampVec, vadd, vsmul, edgeFish, Prod.ext_iff]

/-- C3 (amended): a step that completes moves the agent to exactly
`position + velocity * speed` — no clamping is applied — and that point lies
inside `[0, width] × [0, height]`; a target outside the domain instead raises
(see the counterexample), so every position ever held is within bounds. -/
theorem C3_step_moves_unclamped_within_bounds
    (f : Fish) (sp : Space) (agents : List Fish) (g : Fish)
    (hstep : Fish.step f sp agents = Except.ok g) :
    g.pos = vadd f.pos (vsmul f.speed g.velocity) ∧
      0 ≤ g.pos.1 ∧ g.pos.1 ≤ sp.x_max ∧ 0 ≤ g.pos.2 ∧ g.pos.2 ≤ sp.y_max := by
  rw [Fish.step] at hstep
  split at hstep
  · simp at hstep
  · rename_i v hv
    split at hstep
    · simp at hstep
    · rename_i p hm
      simp only [Except.ok.injEq] at hstep
      subst hstep
      rw [Space.move_agent] at hm
      by_cases hoob : sp.oob (vadd f.pos (vsmul f.speed v))
      · rw [if_pos hoob] at hm; simp at hm
      · rw [if_neg hoob] at hm
        simp only [Except.ok.injEq] at hm
        subst hm
        rw [Space.oob] at hoob
        push_neg at hoob
        exact ⟨rfl, hoob.1, hoob.2.1, hoob.2.2.1, hoob.2.2.2⟩

/-- A fish in the middle of the domain, heading up. -/
def midFish : Fish := ⟨0, (50, 50), 1, (0, 1), 10, 2, 1/40, 1/4, 1/25, none⟩

/-- The state of `midFish` after one step. -/
def midFish' : Fish := ⟨0, (50, 51), 1, (0, 1), 10, 2, 1/40, 1/4, 1/25, none⟩

/-- Witness for the amended C3 at a concrete in-bounds step. -/
theorem C3_witness :
    midFish'.pos = vadd midFish.pos (vsmul midFish.speed midFish'.velocity) ∧
      0 ≤ midFish'.pos.1 ∧ midFish'.pos.1 ≤ (100 : ℝ) ∧ 0 ≤ midFish'.pos.2 ∧
      midFish'.pos.2 ≤ (100 : ℝ) := by
  refine C3_step_moves_unclamped_within_bounds midFish ⟨100, 100⟩ [midFish] midFish' ?_
  have hn : get_neighbors [midFish] midFish.pos midFish.vision false = [] := by
    norm_num [get_neighbors, get_distance, np_linalg_norm, vsub, midFish,
      Real.sqrt_zero, List.filter]
  have hc : Fish.combinedVelocity midFish [] = (0, 1) := by
    norm_num [Fish.combinedVelocity, Fish.cohere, Fish.separate,
      Fish.match_velocity, vadd, vdiv, vsmul, midFish, Prod.ext_iff]
  rw [Fish.step, hn, hc]
  norm_num [normalizeVelocity, np_linalg_norm, Real.sqrt_one, Space.move_agent,
    Space.oob, vadd, vsmul, vdiv, midFish, midFish', Fish.mk.injEq, Prod.ext_iff]

/-! ### C2 — the velocity update rule -/

/-- Vector addition is associative. -/
theorem vadd_assoc (a b c : Vec2) : vadd (vadd a b) c = vadd a (vadd b c) := by
  simp [vadd, add_assoc]

/-- The zero vector is a left unit for vector addition. -/
theorem vadd_zero_left (a : Vec2) : vadd (0, 0) a = a := by
  simp [vadd]

/-- A left fold of vector additions accumulates the vector sum. -/
theorem foldl_vadd_eq (l : List Vec2) : ∀ z : Vec2, l.foldl vadd z = vadd z (vsum l) := by
  induction l with
  | nil => intro z; simp [vsum, vadd]
  | cons a t ih =>
    intro z
    rw [List.foldl_cons, ih, show vsum (a :: t) = vadd a (vsum t) from rfl,
      vadd_assoc]

/-- The source's `cohere` accumulation equals the mean heading of the spec. -/
theorem cohere_eq_vmean (f : Fish) (ns : List Fish) :
    f.cohere ns = vmean (ns.map (fun n => get_heading f.pos n.pos)) := by
  cases ns with
  | nil => simp [Fish.cohere, vmean]
  | cons a t =>
    rw [Fish.cohere, vmean]
    rw [show ((a :: t).foldl (fun acc n => vadd acc (get_heading f.pos n.pos)) (0, 0)) =
        ((a :: t).map (fun n => get_heading f.pos n.pos)).foldl vadd (0, 0) from
      (List.foldl_map _ _ _ _).symm]
    rw [foldl_vadd_eq, vadd_zero_left]
    rw [if_neg (by simp), if_neg (by simp)]
    simp

/-- The source's `match_velocity` accumulation equals the mean neighbor velocity. -/
theorem match_velocity_eq_vmean (f : Fish) (ns : List Fish) :
    f.match_velocity ns = vmean (ns.map (fun n => n.velocity)) := by
  cases ns with
  | nil => simp [Fish.match_velocity, vmean]
  | cons a t =>
    rw [Fish.match_velocity, vmean]
    rw [show ((a :: t).foldl (fun acc n => vadd acc n.velocity) (0, 0)) =
        ((a :: t).map (fun n => n.velocity)).foldl vadd (0, 0) from
      (List.foldl_map _ _ _ _).symm]
    rw [foldl_vadd_eq, vadd_zero_left]
    rw [if_neg (by simp), if_neg (by simp)]
    simp

/-- The source's `separate` fold equals the negated sum of headings to the
strictly-closer-than-`separation` neighbors. -/
theorem foldl_separate_eq (f : Fish) : ∀ (ns : List Fish) (acc : Vec2),
    ns.foldl (fun acc other =>
      if get_distance f.pos other.pos < f.separation then
        vsub acc (get_heading f.pos other.pos) else acc) acc =
    vadd acc (vneg (vsum ((ns.filter (fun n =>
      decide (get_distance f.pos n.pos < f.separation))).map
        (fun n => get_heading f.pos n.pos)))) := by
  intro ns
  induction ns with
  | nil => intro acc; simp [vsum, vadd, vneg]
  | cons a t ih =>
    intro acc
    by_cases h : get_distance f.pos a.pos < f.separation
    · rw [List.foldl_cons, if_pos h, ih, List.filter_cons_of_pos (by simpa using h)]
      simp only [List.map_cons, show ∀ x l, vsum (x :: l) = vadd x (vsum l) from
        fun x l => rfl, vadd, vneg, vsub, Prod.mk.injEq]
      constructor <;> ring
    · rw [List.foldl_cons, if_neg h, ih, List.filter_cons_of_neg (by simpa using h)]

/-- `separate` as the spec words it. -/
theorem separate_eq_spec (f : Fish) (ns : List Fish) :
    f.separate ns = vneg (vsum ((ns.filter (fun n =>
      decide (get_distance f.pos n.pos < f.separation))).map
        (fun n => get_heading f.pos n.pos))) := by
  rw [Fish.separate, foldl_separate_eq, vadd_zero_left]

/-- The combined update computed by `Fish.step` coincides with the spec's
formula. -/
theorem combined_eq_spec (f : Fish) (ns : List Fish) :
    f.combinedVelocity ns = specCombined f ns := by
  rw [Fish.combinedVelocity, specCombined, cohere_eq_vmean, separate_eq_spec,
    match_velocity_eq_vmean]

/-- C2: for an agent with a non-empty neighbor set, a completed step sets the new
velocity to the unit normalization of
`velocity + (cohere·w_cohere + separate·w_separate + match·w_match) / 2`, where
cohere is the mean heading to the neighbors, separate is the negated sum of
headings to the neighbors strictly closer than `separation`, and match is the
mean neighbor velocity, each component zero when its qualifying set is empty. -/
theorem C2_step_velocity_rule
    (f : Fish) (sp : Space) (agents : List Fish) (g : Fish)
    (hne : get_neighbors agents f.pos f.vision false ≠ [])
    (hnz : np_linalg_norm
      (specCombined f (get_neighbors agents f.pos f.vision false)) ≠ 0)
    (hstep : Fish.step f sp agents = Except.ok g) :
    g.velocity =
      vdiv (specCombined f (get_neighbors agents f.pos f.vision false))
        (np_linalg_norm (specCombined f (get_neighbors agents f.pos f.vision false))) := by
  have hcs := combined_eq_spec f (get_neighbors agents f.pos f.vision false)
  rw [Fish.step] at hstep
  split at hstep
  · simp at hstep
  · rename_i v hv
    rw [normalizeVelocity, hcs, if_neg hnz] at hv
    simp only [Except.ok.injEq] at hv
    split at hstep
    · simp at hstep
    · simp only [Except.ok.injEq] at hstep
      subst hstep
      exact hv.symm

/-- A fish used to witness the velocity rule. -/
def wA : Fish := ⟨0, (50, 50), 1, (1, 0), 10, 2, 0, 0, 0, none⟩

/-- Its single neighbor, one unit to the right. -/
def wB : Fish := ⟨1, (51, 50), 1, (1, 0), 10, 2, 0, 0, 0, none⟩

/-- The state of `wA` after one step among `[wA, wB]`. -/
def wA' : Fish := ⟨0, (51, 50), 1, (1, 0), 10, 2, 0, 0, 0, none⟩

/-- Witness for C2 at a concrete two-fish configuration. -/
theorem C2_witness :
    wA'.velocity =
      vdiv (specCombined wA (get_neighbors [wA, wB] wA.pos wA.vision false))
        (np_linalg_norm (specCombined wA (get_neighbors [wA, wB] wA.pos wA.vision false))) := by
  have hn : get_neighbors [wA, wB] wA.pos wA.vision false = [wB] := by
    norm_num [get_neighbors, get_distance, np_linalg_norm, vsub, wA, wB,
      Real.sqrt_zero, Real.sqrt_one, List.filter]
  have hspec : specCombined wA [wB] = (1, 0) := by
    norm_num [specCombined, vmean, vsum, vneg, vadd, vdiv, vsmul, get_heading,
      vsub, get_distance, np_linalg_norm, wA, wB, Real.sqrt_one, List.filter,
      Prod.ext_iff]
  refine C2_step_velocity_rule wA ⟨100, 100⟩ [wA, wB] wA' ?_ ?_ ?_
  · rw [hn]; simp
  · rw [hn, hspec]
    norm_num [np_linalg_norm, Real.sqrt_one]
  · rw [Fish.step, hn]
    have hc : Fish.combinedVelocity wA [wB] = (1, 0) := by
      rw [combined_eq_spec, hspec]
    rw [hc]
    norm_num [normalizeVelocity, np_linalg_norm, Real.sqrt_one, Space.move_agent,
      Space.oob, vadd, vsmul, vdiv, wA, wA', Fish.mk.injEq, Prod.ext_iff]

/-! ### C1 — the shoal-extent metric returns the hull perimeter -/

/-- First vertex of the 3–4–5 triangle of fish. -/
def hullP1 : Fish := taggedFish 0 (0, 0) (1, 0)

/-- Second vertex of the 3–4–5 triangle of fish. -/
def hullP2 : Fish := taggedFish 1 (4, 0) (1, 0)

/-- Third vertex of the 3–4–5 triangle of fish. -/
def hullP3 : Fish := taggedFish 2 (0, 3) (1, 0)

/-- C1: the shoal-extent metric does not return the enclosed hull area.  For the
3–4–5 right triangle with vertices `(0,0)`, `(4,0)`, `(0,3)` the metric returns
`12` — scipy's 2D `ConvexHull.area` is the hull perimeter — while the enclosed
area of the hull is `6`. -/
theorem C1_area_is_perimeter :
    area [hullP1, hullP2, hullP3] = Except.ok 12 ∧
      enclosed_area [hullP1, hullP2, hullP3] = Except.ok 6 ∧ (12 : ℝ) ≠ 6 := by
  have hf : fishOnly [hullP1, hullP2, hullP3] =
      Except.ok [hullP1, hullP2, hullP3] := by
    simp [fishOnly, getTag, hullP1, hullP2, hullP3, taggedFish]
  have hmap : [hullP1, hullP2, hullP3].map (fun a => a.pos) =
      [((0 : ℝ), (0 : ℝ)), (4, 0), (0, 3)] := by
    simp [hullP1, hullP2, hullP3, taggedFish]
  have hcond : ¬(List.length [((0 : ℝ), (0 : ℝ)), ((4 : ℝ), (0 : ℝ)), ((0 : ℝ), (3 : ℝ))] < 3 ∨
      ∀ p ∈ [((0 : ℝ), (0 : ℝ)), ((4 : ℝ), (0 : ℝ)), ((0 : ℝ), (3 : ℝ))],
        ∀ q ∈ [((0 : ℝ), (0 : ℝ)), ((4 : ℝ), (0 : ℝ)), ((0 : ℝ), (3 : ℝ))],
          ∀ r ∈ [((0 : ℝ), (0 : ℝ)), ((4 : ℝ), (0 : ℝ)), ((0 : ℝ), (3 : ℝ))],
            cross2 p q r = 0) := by
    push_neg
    exact ⟨by simp, (0, 0), by simp, (4, 0), by simp, (0, 3), by simp,
      by norm_num [cross2]⟩
  have hhull : hullVertices [((0 : ℝ), (0 : ℝ)), (4, 0), (0, 3)] =
      [(0, 0), (4, 0), (0, 3)] := by
    norm_num [hullVertices, List.insertionSort, List.orderedInsert, lexLe,
      buildChain, popChain, cross2, List.foldl]
  have h16 : Real.sqrt 16 = 4 := by
    rw [show (16 : ℝ) = 4 ^ 2 by norm_num, Real.sqrt_sq (by norm_num : (0 : ℝ) ≤ 4)]
  have h25 : Real.sqrt 25 = 5 := by
    rw [show (25 : ℝ) = 5 ^ 2 by norm_num, Real.sqrt_sq (by norm_num : (0 : ℝ) ≤ 5)]
  have h9 : Real.sqrt 9 = 3 := by
    rw [show (9 : ℝ) = 3 ^ 2 by norm_num, Real.sqrt_sq (by norm_num : (0 : ℝ) ≤ 3)]
  refine ⟨?_, ?_, by norm_num⟩
  · simp only [area, hf, hmap, scipy_ConvexHull, if_neg hcond, hhull]
    norm_num [scipy_hull_area, ringEdges, get_distance, np_linalg_norm, vsub,
      List.zip_cons_cons, h16, h25, h9]
  · simp only [enclosed_area, hf, hmap, scipy_ConvexHull, if_neg hcond, hhull]
    norm_num [scipy_hull_volume, ringEdges, List.zip_cons_cons]

/-! ### C8 — polarization: median machinery -/

/-- A constant list is sorted. -/
theorem sorted_replicate (n : ℕ) (θ : ℝ) :
    List.Sorted (fun x y : ℝ => x ≤ y) (List.replicate n θ) := by
  induction n with
  | zero => simp
  | succ k ih =>
    rw [List.replicate_succ, List.sorted_cons]
    exact ⟨fun b hb => le_of_eq (List.eq_of_mem_replicate hb).symm, ih⟩

/-- Sorting a constant list returns it unchanged. -/
theorem insertionSort_replicate (n : ℕ) (θ : ℝ) :
    (List.replicate n θ).insertionSort (fun x y => x ≤ y) = List.replicate n θ :=
  List.eq_of_perm_of_sorted (List.perm_insertionSort _ _)
    (List.sorted_insertionSort _ _) (sorted_replicate n θ)

/-- Indexing with default into a constant list. -/
theorem getD_replicate : ∀ (n i : ℕ), i < n → ∀ θ : ℝ,
    (List.replicate n θ).getD i 0 = θ := by
  intro n
  induction n with
  | zero => intro i h; omega
  | succ k ih =>
    intro i h θ
    cases i with
    | zero => simp [List.replicate_succ]
    | succ j =>
      rw [List.replicate_succ]
      simp only [List.getD_cons_succ]
      exact ih j (by omega) θ

/-- `np.median` of a constant list is the constant. -/
theorem npMedian_replicate (n : ℕ) (h : 1 ≤ n) (θ : ℝ) :
    npMedian (List.replicate n θ) = θ := by
  simp only [npMedian, insertionSort_replicate, List.length_replicate]
  by_cases hodd : n % 2 = 1
  · rw [if_pos hodd, getD_replicate n (n / 2) (by omega) θ]
  · rw [if_neg hodd, getD_replicate n (n / 2 - 1) (by omega) θ,
      getD_replicate n (n / 2) (by omega) θ]
    ring

/-- Sorting commutes with a monotone map. -/
theorem insertionSort_map_mono (g : ℝ → ℝ) (hg : Monotone g) (l : List ℝ) :
    (l.map g).insertionSort (fun x y => x ≤ y) =
      (l.insertionSort (fun x y => x ≤ y)).map g := by
  refine List.eq_of_perm_of_sorted ?_ (List.sorted_insertionSort _ _) ?_
  · exact (List.perm_insertionSort _ _).trans
      (((List.perm_insertionSort (fun x y : ℝ => x ≤ y) l).symm).map g)
  · exact List.Pairwise.map g (fun a b hab => hg hab)
      (List.sorted_insertionSort (fun x y : ℝ => x ≤ y) l)

/-- Indexing with default commutes with division by a constant. -/
theorem getD_map_div (c : ℝ) : ∀ (s : List ℝ) (i : ℕ),
    (s.map (fun x => x / c)).getD i 0 = s.getD i 0 / c := by
  intro s
  induction s with
  | nil => intro i; simp [zero_div]
  | cons a t ih =>
    intro i
    cases i with
    | zero => simp
    | succ j =>
      simp only [List.map_cons, List.getD_cons_succ]
      exact ih j

/-- `np.median` commutes with division by a positive constant. -/
theorem npMedian_map_div (c : ℝ) (hc : 0 < c) (l : List ℝ) :
    npMedian (l.map (fun x => x / c)) = npMedian l / c := by
  have hmono : Monotone (fun x : ℝ => x / c) :=
    fun x y hxy => (div_le_div_right hc).mpr hxy
  simp only [npMedian, insertionSort_map_mono _ hmono, List.length_map]
  by_cases h : l.length % 2 = 1
  · rw [if_pos h, if_pos h, getD_map_div]
  · rw [if_neg h, if_neg h, getD_map_div, getD_map_div]
    ring

/-- The statsmodels `mad` is the unscaled median absolute deviation divided by
the library's normalization constant. -/
theorem sm_mad_eq_unscaled (a : List ℝ) : sm_mad a = unscaled_mad a / mad_c := by
  have hmap : a.map (fun x => |x - npMedian a| / mad_c) =
      (a.map (fun x => |x - npMedian a|)).map (fun x => x / mad_c) := by
    simp [List.map_map, Function.comp]
  rw [sm_mad, unscaled_mad, hmap, npMedian_map_div mad_c (by norm_num [mad_c])]

/-- The unscaled median absolute deviation of a constant list vanishes. -/
theorem unscaled_mad_replicate (n : ℕ) (h : 1 ≤ n) (θ : ℝ) :
    unscaled_mad (List.replicate n θ) = 0 := by
  rw [unscaled_mad, npMedian_replicate n h θ, List.map_replicate]
  simp only [sub_self, abs_zero]
  exact npMedian_replicate n h 0

/-- C8 (amended): the polarization metric returns the median absolute deviation
of the `atan2` angles from their median, divided by the statsmodels
normalization constant `0.67448975019608171` (it is not unscaled); for agents
with identical velocities it still returns exactly `0`. -/
theorem C8_polar_scaled_mad (agents : List Fish) (fish : List Fish)
    (hf : fishOnly agents = Except.ok fish) (hne : fish ≠ []) :
    polar agents = Except.ok (unscaled_mad
      (fish.map (fun a => atan2 a.velocity.2 a.velocity.1)) / mad_c) ∧
    ∀ v : Vec2, (∀ a ∈ fish, a.velocity = v) → polar agents = Except.ok 0 := by
  have hzip : ((fish.map (fun a => a.velocity.2)).zip
      (fish.map (fun a => a.velocity.1))).map (fun yx => atan2 yx.1 yx.2) =
      fish.map (fun a => atan2 a.velocity.2 a.velocity.1) := by
    rw [List.zip_map', List.map_map]
    rfl
  constructor
  · simp only [polar, hf, hzip, sm_mad_eq_unscaled]
  · intro v hv
    simp only [polar, hf, hzip]
    have hrep : fish.map (fun a => atan2 a.velocity.2 a.velocity.1) =
        List.replicate fish.length (atan2 v.2 v.1) := by
      refine List.eq_replicate.mpr ⟨by simp, ?_⟩
      intro b hb
      obtain ⟨a, ha, rfl⟩ := List.mem_map.mp hb
      rw [hv a ha]
    rw [hrep, sm_mad_eq_unscaled,
      unscaled_mad_replicate fish.length (by
        cases fish with
        | nil => exact absurd rfl hne
        | cons x t => simp) (atan2 v.2 v.1), zero_div]

/-- A fish heading along the x axis. -/
def polarFishA : Fish := taggedFish 0 (0, 0) (1, 0)

/-- A fish heading along the y axis. -/
def polarFishB : Fish := taggedFish 1 (3, 0) (0, 1)

/-- C8 counterexample: for the two fish heading `(1,0)` and `(0,1)` the angles
are `0` and `π/2`, whose unscaled median absolute deviation is `π/4`, but the
metric returns `π/4` divided by the statsmodels constant — a different number,
so the statistic is not the unscaled MAD. -/
theorem C8_cex_polar_scaled :
    polar [polarFishA, polarFishB] = Except.ok (Real.pi / 4 / mad_c) ∧
      unscaled_mad ([polarFishA, polarFishB].map
        (fun a => atan2 a.velocity.2 a.velocity.1)) = Real.pi / 4 ∧
      Real.pi / 4 / mad_c ≠ Real.pi / 4 := by
  have hπ : (0 : ℝ) < Real.pi := Real.pi_pos
  have ha : atan2 (0 : ℝ) 1 = 0 := by
    norm_num [atan2, Real.arctan_zero]
  have hb : atan2 (1 : ℝ) 0 = Real.pi / 2 := by
    norm_num [atan2]
  have hf : fishOnly [polarFishA, polarFishB] =
      Except.ok [polarFishA, polarFishB] := by
    simp [fishOnly, getTag, polarFishA, polarFishB, taggedFish]
  have hangles : [polarFishA, polarFishB].map
      (fun a => atan2 a.velocity.2 a.velocity.1) = [(0 : ℝ), Real.pi / 2] := by
    simp [polarFishA, polarFishB, taggedFish, ha, hb]
  have hmed : npMedian [(0 : ℝ), Real.pi / 2] = Real.pi / 4 := by
    have h0 : (0 : ℝ) ≤ Real.pi / 2 := by positivity
    simp only [npMedian, List.insertionSort, List.orderedInsert, if_pos h0,
      List.length_cons, List.length_nil]
    norm_num [List.getD]
    ring
  have humad : unscaled_mad [(0 : ℝ), Real.pi / 2] = Real.pi / 4 := by
    rw [unscaled_mad, hmed]
    have e1 : |(0 : ℝ) - Real.pi / 4| = Real.pi / 4 := by
      rw [abs_sub_comm, sub_zero, abs_of_nonneg (by positivity)]
    have e2 : |Real.pi / 2 - Real.pi / 4| = Real.pi / 4 := by
      rw [show Real.pi / 2 - Real.pi / 4 = Real.pi / 4 by ring,
        abs_of_nonneg (by positivity)]
    simp only [List.map_cons, List.map_nil, e1, e2]
    rw [show [Real.pi / 4, Real.pi / 4] = List.replicate 2 (Real.pi / 4) from rfl,
      npMedian_replicate 2 (by norm_num)]
  refine ⟨?_, ?_, ?_⟩
  · simp only [polar, hf]
    rw [show ((([polarFishA, polarFishB].map (fun a => a.velocity.2)).zip
        ([polarFishA, polarFishB].map (fun a => a.velocity.1))).map
          (fun yx => atan2 yx.1 yx.2)) = [(0 : ℝ), Real.pi / 2] from by
      simp [polarFishA, polarFishB, taggedFish, ha, hb]]
    rw [sm_mad_eq_unscaled, humad]
  · rw [hangles, humad]
  · intro h
    have hc : (0 : ℝ) < mad_c := by norm_num [mad_c]
    rw [div_eq_iff (ne_of_gt hc)] at h
    rcases mul_right_eq_self₀.mp h.symm with h1 | h2
    · norm_num [mad_c] at h1
    · have := Real.pi_ne_zero
      norm_num at h2
      exact this h2

/-- Witness for the amended C8: two identically heading fish polarize to `0`. -/
theorem C8_witness :
    polar [taggedFish 0 (0, 0) (1, 0), taggedFish 1 (5, 5) (1, 0)] =
      Except.ok 0 := by
  have hf : fishOnly [taggedFish 0 (0, 0) (1, 0), taggedFish 1 (5, 5) (1, 0)] =
      Except.ok [taggedFish 0 (0, 0) (1, 0), taggedFish 1 (5, 5) (1, 0)] := by
    simp [fishOnly, getTag, taggedFish]
  exact (C8_polar_scaled_mad _ _ hf (by simp)).2 (1, 0)
    (by
      intro a ha
      simp only [List.mem_cons, List.not_mem_nil, or_false] at ha
      rcases ha with h | h <;> subst h <;> rfl)

/-! ### C7 — nearest-neighbour distance -/

/-- Distances are nonnegative. -/
theorem get_distance_nonneg (p q : Vec2) : 0 ≤ get_distance p q := by
  rw [get_distance, np_linalg_norm]
  exact Real.sqrt_nonneg _

/-- The distance of a point to itself is zero. -/
theorem get_distance_self (p : Vec2) : get_distance p p = 0 := by
  simp [get_distance, np_linalg_norm, vsub]

/-- Folding IEEE addition from `+inf` stays `+inf`. -/
theorem foldl_pyadd_from_inf : ∀ l : List PyF, l.foldl PyF.add PyF.inf = PyF.inf := by
  intro l
  induction l with
  | nil => rfl
  | cons a t ih =>
    rw [List.foldl_cons, show PyF.add PyF.inf a = PyF.inf by cases a <;> rfl]
    exact ih

/-- Folding IEEE addition over a list containing `+inf` yields `+inf`. -/
theorem foldl_pyadd_inf_mem : ∀ (l : List PyF) (acc : PyF),
    PyF.inf ∈ l → l.foldl PyF.add acc = PyF.inf := by
  intro l
  induction l with
  | nil => intro acc h; simp at h
  | cons a t ih =>
    intro acc h
    rcases List.mem_cons.mp h with h1 | h2
    · rw [List.foldl_cons, ← h1,
        show PyF.add acc PyF.inf = PyF.inf by cases acc <;> rfl]
      exact foldl_pyadd_from_inf t
    · rw [List.foldl_cons]
      exact ih _ h2

/-- The Python sum of a list containing `+inf` is `+inf`. -/
theorem pySum_of_inf_mem (l : List PyF) (h : PyF.inf ∈ l) : pySum l = PyF.inf :=
  foldl_pyadd_inf_mem l _ h

/-- Folding IEEE addition over embedded reals is real addition. -/
theorem foldl_pyadd_fin : ∀ (l : List ℝ) (x : ℝ),
    (l.map PyF.fin).foldl PyF.add (PyF.fin x) = PyF.fin (x + l.sum) := by
  intro l
  induction l with
  | nil => intro x; simp [List.foldl_nil]
  | cons a t ih =>
    intro x
    rw [List.map_cons, List.foldl_cons, show PyF.add (PyF.fin x) (PyF.fin a) =
      PyF.fin (x + a) from rfl, ih, List.sum_cons]
    ring_nf

/-- The Python sum of embedded reals is the real sum. -/
theorem pySum_map_fin (l : List ℝ) : pySum (l.map PyF.fin) = PyF.fin l.sum := by
  rw [pySum, foldl_pyadd_fin, zero_add]

/-- The Python sum of pointwise-embedded reals is the real sum of the images. -/
theorem pySum_map_fin_comp {α : Type} (g : α → ℝ) (l : List α) :
    pySum (l.map (fun x => PyF.fin (g x))) = PyF.fin (l.map g).sum := by
  have h : l.map (fun x => PyF.fin (g x)) = (l.map g).map PyF.fin := by
    rw [List.map_map]
    rfl
  rw [h, pySum_map_fin]

/-- Sorting the distances from a data point to all data points yields the self
distance `0` followed by the sorted distances to the remaining points. -/
theorem insertionSort_dists (me : Vec2) (pts : List Vec2) (hme : me ∈ pts) :
    (pts.map (get_distance me)).insertionSort (fun a b => a ≤ b) =
      0 :: ((pts.erase me).map (get_distance me)).insertionSort (fun a b => a ≤ b) := by
  refine List.eq_of_perm_of_sorted ?_ (List.sorted_insertionSort _ _) ?_
  · have p1 : ((pts.map (get_distance me)).insertionSort (fun a b => a ≤ b)).Perm
        ((me :: pts.erase me).map (get_distance me)) :=
      (List.perm_insertionSort _ _).trans ((List.perm_cons_erase hme).map _)
    have p2 : (me :: pts.erase me).map (get_distance me) =
        0 :: (pts.erase me).map (get_distance me) := by
      rw [List.map_cons, get_distance_self]
    have p3 : (0 :: (pts.erase me).map (get_distance me)).Perm
        (0 :: ((pts.erase me).map (get_distance me)).insertionSort
          (fun a b => a ≤ b)) :=
      List.Perm.cons 0 (List.perm_insertionSort _ _).symm
    exact (p2 ▸ p1).trans p3
  · rw [List.sorted_cons]
    refine ⟨?_, List.sorted_insertionSort _ _⟩
    intro b hb
    have hb' : b ∈ (pts.erase me).map (get_distance me) :=
      (List.perm_insertionSort _ _).mem_iff.mp hb
    obtain ⟨p, _, rfl⟩ := List.mem_map.mp hb'
    exact get_distance_nonneg me p

/-- For at most 5 data points, the per-agent query average is `+inf`: the six
requested neighbors include padded missing entries at infinite distance. -/
theorem kdtree_mean_small (pts : List Vec2) (me : Vec2) (hme : me ∈ pts)
    (hlen : pts.length ≤ 5) :
    (pySum ((kdtree_query pts me 6).drop 1)).divNat
      ((kdtree_query pts me 6).drop 1).length = PyF.inf := by
  simp only [kdtree_query]
  set d := (pts.map (get_distance me)).insertionSort (fun a b => a ≤ b) with hd
  have hdn : d.length = pts.length := by
    rw [hd]
    exact (List.perm_insertionSort _ _).length_eq.trans (by simp)
  have htake : d.take 6 = d := List.take_of_length_le (by omega)
  rw [htake]
  have hpos : 1 ≤ (d.map PyF.fin).length := by
    simp only [List.length_map, hdn]
    exact List.length_pos.mpr (List.ne_nil_of_mem hme)
  rw [List.drop_append_of_le_length hpos]
  have hinf : PyF.inf ∈ (d.map PyF.fin).drop 1 ++
      List.replicate (6 - d.length) PyF.inf := by
    refine List.mem_append_right _ ?_
    refine List.mem_replicate.mpr ⟨?_, rfl⟩
    simp only [hdn]
    omega
  rw [pySum_of_inf_mem _ hinf]
  rfl

/-- For at least 6 data points, the per-agent query average is the mean of the
distances to the five nearest other data points. -/
theorem kdtree_mean_large (pts : List Vec2) (me : Vec2) (hme : me ∈ pts)
    (hlen : 6 ≤ pts.length) :
    (pySum ((kdtree_query pts me 6).drop 1)).divNat
      ((kdtree_query pts me 6).drop 1).length =
      PyF.fin (((((pts.erase me).map (get_distance me)).insertionSort
        (fun a b => a ≤ b)).take 5).sum / 5) := by
  simp only [kdtree_query]
  rw [insertionSort_dists me pts hme]
  set s := ((pts.erase me).map (get_distance me)).insertionSort (fun a b => a ≤ b)
    with hs
  have hslen : 5 ≤ s.length := by
    rw [hs]
    have h1 : (((pts.erase me).map (get_distance me)).insertionSort
        (fun a b => a ≤ b)).length = (pts.erase me).length :=
      (List.perm_insertionSort _ _).length_eq.trans (by simp)
    rw [h1, List.length_erase_of_mem hme]
    omega
  rw [show (6 : ℕ) = 5 + 1 from rfl, List.take_succ_cons]
  have hlen6 : (0 :: s.take 5).length = 5 + 1 := by
    simp [List.length_take, min_eq_left hslen]
  rw [hlen6]
  simp only [Nat.sub_self, List.replicate_zero, List.append_nil, List.map_cons,
    List.drop_succ_cons, List.drop_zero]
  rw [pySum_map_fin]
  have htl : (s.take 5).length = 5 := by
    simp [List.length_take, min_eq_left hslen]
  simp only [List.length_map, htl]
  rfl

/-- C7 (amended): for a non-empty population of at most 5 tagged fish the
nearest-neighbour metric silently returns `+inf` (scipy pads the six requested
neighbors with infinite distances) rather than signalling insufficient data or
reducing `k`; for at least 6 fish it returns the mean over agents of the average
distance to the agent's five nearest other agents. -/
theorem C7_nnd_behaviour (agents : List Fish) (fish : List Fish)
    (hf : fishOnly agents = Except.ok fish) (h1 : 1 ≤ fish.length) :
    (fish.length ≤ 5 → nnd agents = Except.ok PyF.inf) ∧
    (6 ≤ fish.length → nnd agents =
      Except.ok (PyF.fin (nnd_spec (fish.map (fun a => a.pos))))) := by
  have hlenmap : (fish.map (fun a => a.pos)).length = fish.length := by simp
  have hne : fish.map (fun a => a.pos) ≠ [] := by
    intro h
    rw [h] at hlenmap
    simp at hlenmap
    omega
  constructor
  · intro h5
    simp only [nnd, hf]
    rw [if_neg (by simpa using hne)]
    rw [List.map_congr_left (fun me hme =>
      kdtree_mean_small (fish.map (fun a => a.pos)) me hme (by omega))]
    rw [List.map_const']
    have : PyF.inf ∈ List.replicate (fish.map (fun a => a.pos)).length PyF.inf :=
      List.mem_replicate.mpr ⟨by omega, rfl⟩
    rw [pySum_of_inf_mem _ this]
    rfl
  · intro h6
    simp only [nnd, hf]
    rw [if_neg (by simpa using hne)]
    rw [List.map_congr_left (fun me hme =>
      kdtree_mean_large (fish.map (fun a => a.pos)) me hme (by omega))]
    rw [pySum_map_fin_comp, nnd_spec]
    simp only [List.length_map, PyF.divNat]

/-- Two close tagged fish for the nearest-neighbour counterexample. -/
def nndFishA : Fish := taggedFish 0 (0, 0) (1, 0)

/-- The second of the two tagged fish. -/
def nndFishB : Fish := taggedFish 1 (1, 0) (0, 1)

/-- C7 counterexample: on a population of 2 tagged fish the metric neither raises
an insufficient-data error nor reduces `k`: it silently returns the
floating-point value `+inf`. -/
theorem C7_cex_nnd_silent_inf :
    nnd [nndFishA, nndFishB] = Except.ok PyF.inf := by
  have hf : fishOnly [nndFishA, nndFishB] = Except.ok [nndFishA, nndFishB] := by
    simp [fishOnly, getTag, nndFishA, nndFishB, taggedFish]
  simp only [nnd, hf]
  rw [if_neg (by simp [nndFishA, nndFishB, taggedFish])]
  rw [List.map_congr_left (fun me hme =>
    kdtree_mean_small ([nndFishA, nndFishB].map (fun a => a.pos)) me hme
      (by simp))]
  rw [List.map_const']
  rw [pySum_of_inf_mem _ (List.mem_replicate.mpr ⟨by simp, rfl⟩)]
  rfl

/-- Witness for the amended C7 at a concrete two-fish population. -/
theorem C7_witness :
    nnd [taggedFish 0 (0, 0) (1, 0), taggedFish 1 (3, 4) (1, 0)] =
      Except.ok PyF.inf :=
  (C7_nnd_behaviour [taggedFish 0 (0, 0) (1, 0), taggedFish 1 (3, 4) (1, 0)]
    [taggedFish 0 (0, 0) (1, 0), taggedFish 1 (3, 4) (1, 0)]
    (by simp [fishOnly, getTag, taggedFish]) (by simp)).1 (by simp)

/-! ### C9 — helpers for evaluating two-agent steps -/

/-- The neighbor filter condition, in propositional form. -/
theorem get_neighbors_cond (p : Vec2) (r : ℝ) (a : Fish) :
    (decide (get_distance p a.pos ≤ r ∧
      ((false : Bool) = true ∨ 0 < get_distance p a.pos)) = true) ↔
    (get_distance p a.pos ≤ r ∧ 0 < get_distance p a.pos) := by
  simp

/-- In a two-agent list, only the second agent is a neighbor of the query point
when the first fails the filter. -/
theorem get_neighbors_pair_second (x y : Fish) (p : Vec2) (r : ℝ)
    (hx : ¬(get_distance p x.pos ≤ r ∧ 0 < get_distance p x.pos))
    (hy1 : get_distance p y.pos ≤ r) (hy2 : 0 < get_distance p y.pos) :
    get_neighbors [x, y] p r false = [y] := by
  rw [get_neighbors, List.filter_cons, List.filter_cons, List.filter_nil]
  rw [if_neg (fun h => hx ((get_neighbors_cond p r x).mp h)),
    if_pos ((get_neighbors_cond p r y).mpr ⟨hy1, hy2⟩)]

/-- In a two-agent list, only the first agent is a neighbor of the query point
when the second fails the filter. -/
theorem get_neighbors_pair_first (x y : Fish) (p : Vec2) (r : ℝ)
    (hx1 : get_distance p x.pos ≤ r) (hx2 : 0 < get_distance p x.pos)
    (hy : ¬(get_distance p y.pos ≤ r ∧ 0 < get_distance p y.pos)) :
    get_neighbors [x, y] p r false = [x] := by
  rw [get_neighbors, List.filter_cons, List.filter_cons, List.filter_nil]
  rw [if_pos ((get_neighbors_cond p r x).mpr ⟨hx1, hx2⟩),
    if_neg (fun h => hy ((get_neighbors_cond p r y).mp h))]

/-- The combined update of an agent with zero cohere and match weights facing a
single neighbor: the old velocity plus half the weighted repulsion (which is the
displacement back toward the agent when the neighbor is strictly closer than the
separation radius, and zero otherwise). -/
theorem combined_one_neighbor (f g : Fish) (hcf : f.cohere_factor = 0)
    (hmf : f.match_factor = 0) :
    f.combinedVelocity [g] = vadd f.velocity (vdiv (vsmul f.separate_factor
      (if get_distance f.pos g.pos < f.separation then vsub f.pos g.pos
       else (0, 0))) 2) := by
  rw [Fish.combinedVelocity, Fish.cohere, Fish.separate, Fish.match_velocity]
  by_cases h : get_distance f.pos g.pos < f.separation
  · rw [if_pos h]
    simp only [List.foldl_cons, List.foldl_nil, List.isEmpty_cons, if_pos h,
      List.length_cons, List.length_nil, hcf, hmf, vadd, vsub, vdiv, vsmul,
      get_heading, Prod.mk.injEq]
    norm_num
  · rw [if_neg h]
    simp only [List.foldl_cons, List.foldl_nil, List.isEmpty_cons, if_neg h,
      List.length_cons, List.length_nil, hcf, hmf, vadd, vsub, vdiv, vsmul,
      get_heading, Prod.mk.injEq]
    norm_num

/-- A step whose combined update has nonzero norm and whose target stays inside
the space succeeds, with the normalized velocity and the exact target point. -/
theorem step_formula (f : Fish) (sp : Space) (agents : List Fish) (c : Vec2)
    (hc : f.combinedVelocity (get_neighbors agents f.pos f.vision false) = c)
    (hnz : np_linalg_norm c ≠ 0)
    (hok : ¬ sp.oob (vadd f.pos (vsmul f.speed (vdiv c (np_linalg_norm c))))) :
    Fish.step f sp agents = Except.ok
      { f with velocity := vdiv c (np_linalg_norm c),
               pos := vadd f.pos (vsmul f.speed (vdiv c (np_linalg_norm c))) } := by
  simp only [Fish.step, hc, normalizeVelocity, if_neg hnz, Space.move_agent,
    if_neg hok]

/-- The stepping pass over a two-agent population in list order. -/
theorem schedule_step_pair01 (sp : Space) (a b a' b' : Fish)
    (ha : Fish.step a sp [a, b] = Except.ok a')
    (hb : Fish.step b sp [a', b] = Except.ok b') :
    schedule_step sp [a, b] [0, 1] = Except.ok [a', b'] := by
  simp only [schedule_step, List.get?, ha, hb, List.set]

/-- The stepping pass over a two-agent population in reversed order. -/
theorem schedule_step_pair10 (sp : Space) (a b a' b' : Fish)
    (hb : Fish.step b sp [a, b] = Except.ok b')
    (ha : Fish.step a sp [a, b'] = Except.ok a') :
    schedule_step sp [a, b] [1, 0] = Except.ok [a', b'] := by
  simp only [schedule_step, List.get?, ha, hb, List.set]

/-- The distance between two points dominates their signed x separation. -/
theorem dist_ge_dx (a b : Vec2) : b.1 - a.1 ≤ get_distance a b := by
  rw [get_distance, np_linalg_norm, vsub]
  calc b.1 - a.1 ≤ |b.1 - a.1| := le_abs_self _
    _ = Real.sqrt ((b.1 - a.1) ^ 2) := (Real.sqrt_sq_eq_abs _).symm
    _ ≤ Real.sqrt ((b.1 - a.1) ^ 2 + (b.2 - a.2) ^ 2) :=
        Real.sqrt_le_sqrt (by nlinarith [sq_nonneg (b.2 - a.2)])

/-- Each component of a vector divided by its nonzero norm lies in `[-1, 1]`. -/
theorem unit_component_bounds (v : Vec2) (h : np_linalg_norm v ≠ 0) :
    -1 ≤ v.1 / np_linalg_norm v ∧ v.1 / np_linalg_norm v ≤ 1 ∧
      -1 ≤ v.2 / np_linalg_norm v ∧ v.2 / np_linalg_norm v ≤ 1 := by
  have hnn : 0 ≤ np_linalg_norm v := by
    rw [np_linalg_norm]; exact Real.sqrt_nonneg _
  have hpos : 0 < np_linalg_norm v := lt_of_le_of_ne hnn (Ne.symm h)
  have h1 : |v.1| ≤ np_linalg_norm v := by
    rw [np_linalg_norm, ← Real.sqrt_sq_eq_abs]
    exact Real.sqrt_le_sqrt (by nlinarith [sq_nonneg v.2])
  have h2 : |v.2| ≤ np_linalg_norm v := by
    rw [np_linalg_norm, ← Real.sqrt_sq_eq_abs]
    exact Real.sqrt_le_sqrt (by nlinarith [sq_nonneg v.1])
  refine ⟨?_, ?_, ?_, ?_⟩
  · rw [le_div_iff hpos]
    nlinarith [neg_abs_le v.1]
  · rw [div_le_one hpos]
    nlinarith [le_abs_self v.1]
  · rw [le_div_iff hpos]
    nlinarith [neg_abs_le v.2]
  · rw [div_le_one hpos]
    nlinarith [le_abs_self v.2]

/-- The norm as an explicit square root of the component squares. -/
theorem np_linalg_norm_eq (v : Vec2) :
    np_linalg_norm v = Real.sqrt (v.1 ^ 2 + v.2 ^ 2) := rfl

/-- The first component is dominated by the norm in absolute value. -/
theorem abs_fst_le_norm (v : Vec2) : |v.1| ≤ np_linalg_norm v := by
  rw [np_linalg_norm, ← Real.sqrt_sq_eq_abs]
  exact Real.sqrt_le_sqrt (by nlinarith [sq_nonneg v.2])

/-- The second component is dominated by the norm in absolute value. -/
theorem abs_snd_le_norm (v : Vec2) : |v.2| ≤ np_linalg_norm v := by
  rw [np_linalg_norm, ← Real.sqrt_sq_eq_abs]
  exact Real.sqrt_le_sqrt (by nlinarith [sq_nonneg v.1])

/-- Position of an updated fish record. -/
theorem record_pos (f : Fish) (v P : Vec2) :
    ({ f with velocity := v, pos := P } : Fish).pos = P := rfl

/-- Velocity of an updated fish record. -/
theorem record_vel (f : Fish) (v P : Vec2) :
    ({ f with velocity := v, pos := P } : Fish).velocity = v := rfl

/-- The distance as an explicit square root of the coordinate differences. -/
theorem get_distance_eq (p q : Vec2) :
    get_distance p q = Real.sqrt ((q.1 - p.1) ^ 2 + (q.2 - p.2) ^ 2) := rfl

/-! ### C9 — counterexample at exactly the separation distance -/

/-- Left agent of the scenario-B counterexample (separation 2, weight 1/4). -/
def cexA : Fish := ⟨0, (50, 50), 1, (0, 1), 10, 2, 0, 1/4, 0, none⟩

/-- Right agent, exactly `separation = 2` away. -/
def cexB : Fish := ⟨1, (52, 50), 1, (0, 1), 10, 2, 0, 1/4, 0, none⟩

/-- The left agent after one pass: moved straight up, unrepelled. -/
def cexA' : Fish := ⟨0, (50, 51), 1, (0, 1), 10, 2, 0, 1/4, 0, none⟩

/-- The right agent after one pass: moved straight up, unrepelled. -/
def cexB' : Fish := ⟨1, (52, 51), 1, (0, 1), 10, 2, 0, 1/4, 0, none⟩

/-- The square root of 4. -/
theorem sqrt_four : Real.sqrt 4 = 2 := by
  rw [show (4 : ℝ) = 2 ^ 2 by norm_num, Real.sqrt_sq (by norm_num : (0 : ℝ) ≤ 2)]

/-- The square root of 5 is at most 10. -/
theorem sqrt_five_le : Real.sqrt 5 ≤ 10 := by
  rw [show (10 : ℝ) = Real.sqrt 100 from by
    rw [show (100 : ℝ) = 10 ^ 2 by norm_num,
      Real.sqrt_sq (by norm_num : (0 : ℝ) ≤ 10)]]
  exact Real.sqrt_le_sqrt (by norm_num)

/-- The square root of 5 is positive. -/
theorem sqrt_five_pos : 0 < Real.sqrt 5 := Real.sqrt_pos.mpr (by norm_num)

/-- The square root of 5 is not below the separation radius 2. -/
theorem sqrt_five_not_lt_two : ¬ Real.sqrt 5 < 2 := by
  rw [not_lt, ← sqrt_four]
  exact Real.sqrt_le_sqrt (by norm_num)

/-- The norm of the unit upward vector. -/
theorem norm_up_one : np_linalg_norm ((0 : ℝ), (1 : ℝ)) = 1 := by
  rw [np_linalg_norm_eq]
  norm_num [Real.sqrt_one]

/-- C9 counterexample: two agents placed exactly `separation` apart, identical
velocities, cohere and match weights 0 and separate weight `1/4 > 0`.  The
separation rule uses a strict comparison, so neither agent is repelled: in both
activation orders each agent simply moves along its heading and the distance
after the step equals the distance before — it does not strictly increase. -/
theorem C9_cex_exact_separation_no_repulsion :
    get_distance cexA.pos cexB.pos = 2 ∧
    schedule_step ⟨100, 100⟩ [cexA, cexB] [0, 1] = Except.ok [cexA', cexB'] ∧
    schedule_step ⟨100, 100⟩ [cexA, cexB] [1, 0] = Except.ok [cexA', cexB'] ∧
    get_distance cexA'.pos cexB'.pos = 2 ∧ ¬ ((2 : ℝ) > (2 : ℝ)) := by
  have dAB : get_distance cexA.pos cexB.pos = 2 := by
    rw [get_distance_eq]
    norm_num [cexA, cexB, sqrt_four]
  have dBA : get_distance cexB.pos cexA.pos = 2 := by
    rw [get_distance_eq]
    norm_num [cexA, cexB, sqrt_four]
  have dBA' : get_distance cexB.pos cexA'.pos = Real.sqrt 5 := by
    rw [get_distance_eq]
    norm_num [cexA', cexB]
  have dAB' : get_distance cexA.pos cexB'.pos = Real.sqrt 5 := by
    rw [get_distance_eq]
    norm_num [cexA, cexB']
  have hstepA : Fish.step cexA ⟨100, 100⟩ [cexA, cexB] = Except.ok cexA' := by
    have hnA : get_neighbors [cexA, cexB] cexA.pos cexA.vision false = [cexB] := by
      refine get_neighbors_pair_second cexA cexB _ _ ?_ ?_ ?_
      · rw [get_distance_self]; simp
      · rw [dAB]; norm_num [cexA]
      · rw [dAB]; norm_num
    have hcA : cexA.combinedVelocity
        (get_neighbors [cexA, cexB] cexA.pos cexA.vision false) = (0, 1) := by
      rw [hnA, combined_one_neighbor _ _ rfl rfl,
        if_neg (by rw [dAB]; norm_num [cexA])]
      norm_num [cexA, vadd, vdiv, vsmul, Prod.ext_iff]
    rw [step_formula cexA ⟨100, 100⟩ [cexA, cexB] (0, 1) hcA
      (by rw [norm_up_one]; norm_num)
      (by
        rw [norm_up_one]
        norm_num [Space.oob, vadd, vsmul, vdiv, cexA])]
    norm_num [cexA, cexA', norm_up_one, vadd, vsmul, vdiv, Fish.mk.injEq,
      Prod.ext_iff]
  have hstepB : Fish.step cexB ⟨100, 100⟩ [cexA', cexB] = Except.ok cexB' := by
    have hnB : get_neighbors [cexA', cexB] cexB.pos cexB.vision false = [cexA'] := by
      refine get_neighbors_pair_first cexA' cexB _ _ ?_ ?_ ?_
      · rw [dBA']; norm_num [cexB, sqrt_five_le]
      · rw [dBA']; exact sqrt_five_pos
      · rw [get_distance_self]; simp
    have hcB : cexB.combinedVelocity
        (get_neighbors [cexA', cexB] cexB.pos cexB.vision false) = (0, 1) := by
      rw [hnB, combined_one_neighbor _ _ rfl rfl,
        if_neg (by rw [dBA']; norm_num [cexB, sqrt_five_not_lt_two])]
      norm_num [cexB, vadd, vdiv, vsmul, Prod.ext_iff]
    rw [step_formula cexB ⟨100, 100⟩ [cexA', cexB] (0, 1) hcB
      (by rw [norm_up_one]; norm_num)
      (by
        rw [norm_up_one]
        norm_num [Space.oob, vadd, vsmul, vdiv, cexB])]
    norm_num [cexB, cexB', norm_up_one, vadd, vsmul, vdiv, Fish.mk.injEq,
      Prod.ext_iff]
  have hstepB0 : Fish.step cexB ⟨100, 100⟩ [cexA, cexB] = Except.ok cexB' := by
    have hnB0 : get_neighbors [cexA, cexB] cexB.pos cexB.vision false = [cexA] := by
      refine get_neighbors_pair_first cexA cexB _ _ ?_ ?_ ?_
      · rw [dBA]; norm_num [cexB]
      · rw [dBA]; norm_num
      · rw [get_distance_self]; simp
    have hcB0 : cexB.combinedVelocity
        (get_neighbors [cexA, cexB] cexB.pos cexB.vision false) = (0, 1) := by
      rw [hnB0, combined_one_neighbor _ _ rfl rfl,
        if_neg (by rw [dBA]; norm_num [cexB])]
      norm_num [cexB, vadd, vdiv, vsmul, Prod.ext_iff]
    rw [step_formula cexB ⟨100, 100⟩ [cexA, cexB] (0, 1) hcB0
      (by rw [norm_up_one]; norm_num)
      (by
        rw [norm_up_one]
        norm_num [Space.oob, vadd, vsmul, vdiv, cexB])]
    norm_num [cexB, cexB', norm_up_one, vadd, vsmul, vdiv, Fish.mk.injEq,
      Prod.ext_iff]
  have hstepA0 : Fish.step cexA ⟨100, 100⟩ [cexA, cexB'] = Except.ok cexA' := by
    have hnA0 : get_neighbors [cexA, cexB'] cexA.pos cexA.vision false = [cexB'] := by
      refine get_neighbors_pair_second cexA cexB' _ _ ?_ ?_ ?_
      · rw [get_distance_self]; simp
      · rw [dAB']; norm_num [cexA, sqrt_five_le]
      · rw [dAB']; exact sqrt_five_pos
    have hcA0 : cexA.combinedVelocity
        (get_neighbors [cexA, cexB'] cexA.pos cexA.vision false) = (0, 1) := by
      rw [hnA0, combined_one_neighbor _ _ rfl rfl,
        if_neg (by rw [dAB']; norm_num [cexA, sqrt_five_not_lt_two])]
      norm_num [cexA, vadd, vdiv, vsmul, Prod.ext_iff]
    rw [step_formula cexA ⟨100, 100⟩ [cexA, cexB'] (0, 1) hcA0
      (by rw [norm_up_one]; norm_num)
      (by
        rw [norm_up_one]
        norm_num [Space.oob, vadd, vsmul, vdiv, cexA])]
    norm_num [cexA, cexA', norm_up_one, vadd, vsmul, vdiv, Fish.mk.injEq,
      Prod.ext_iff]
  refine ⟨dAB, schedule_step_pair01 _ _ _ _ _ hstepA hstepB,
    schedule_step_pair10 _ _ _ _ _ hstepB0 hstepA0, ?_, by norm_num⟩
  rw [get_distance_eq]
  norm_num [cexA', cexB', sqrt_four]

/-! ### C9 — amended theorem: strict repulsion below the separation radius -/

/-- Scenario-B left agent: cohere and match weights zero, separate weight `sw`. -/
def scnA (sw : ℝ) : Fish := ⟨0, (49, 50), 1, (0, 1), 10, 2, 0, sw, 0, none⟩

/-- Scenario-B right agent, `d` to the right of the left agent. -/
def scnB (d sw : ℝ) : Fish := ⟨1, (49 + d, 50), 1, (0, 1), 10, 2, 0, sw, 0, none⟩

/-- The state of a fish that adopted velocity `v` and moved to `P`. -/
def moved (f : Fish) (v P : Vec2) : Fish := { f with velocity := v, pos := P }

/-- Position of a moved fish. -/
theorem moved_pos (f : Fish) (v P : Vec2) : (moved f v P).pos = P := rfl

/-- Velocity of a moved fish. -/
theorem moved_vel (f : Fish) (v P : Vec2) : (moved f v P).velocity = v := rfl

/-- A step evaluated against a caller-supplied normalized velocity `v` and
target point `P`. -/
theorem step_formula2 (f : Fish) (sp : Space) (agents : List Fish) (c v P : Vec2)
    (hc : f.combinedVelocity (get_neighbors agents f.pos f.vision false) = c)
    (hnz : np_linalg_norm c ≠ 0)
    (hv : vdiv c (np_linalg_norm c) = v)
    (hP : vadd f.pos (vsmul f.speed v) = P)
    (hok : ¬ sp.oob P) :
    Fish.step f sp agents = Except.ok (moved f v P) := by
  simp only [Fish.step, hc, normalizeVelocity, if_neg hnz, hv, hP,
    Space.move_agent, if_neg hok, moved]

/-- Scenario B with the left agent activated first: the distance strictly
increases. -/
theorem C9aux01 (d sw : ℝ) (hd0 : 0 < d) (hd2 : d < 2) (hsw : 0 < sw) :
    ∃ fa fb : Fish,
      schedule_step ⟨100, 100⟩ [scnA sw, scnB d sw] [0, 1] = Except.ok [fa, fb] ∧
      d < get_distance fa.pos fb.pos := by
  have hp : 0 < sw * d / 2 := by positivity
  set N := Real.sqrt ((sw * d / 2) ^ 2 + 1) with hN
  have hN1 : 1 ≤ N := by
    rw [hN]
    calc (1 : ℝ) = Real.sqrt 1 := Real.sqrt_one.symm
      _ ≤ _ := Real.sqrt_le_sqrt (by nlinarith)
  have hN0 : 0 < N := lt_of_lt_of_le one_pos hN1
  have hNnz : N ≠ 0 := ne_of_gt hN0
  have hpN1 : sw * d / 2 / N < 1 := by
    rw [div_lt_one hN0, hN]
    calc sw * d / 2 = Real.sqrt ((sw * d / 2) ^ 2) := (Real.sqrt_sq hp.le).symm
      _ < _ := Real.sqrt_lt_sqrt (sq_nonneg _) (by nlinarith)
  have hpN0 : 0 < sw * d / 2 / N := div_pos hp hN0
  have hiN1 : 1 / N ≤ 1 := by rw [div_le_one hN0]; exact hN1
  have hiN0 : 0 < 1 / N := by positivity
  have hNe : np_linalg_norm (-(sw * d / 2), 1) = N := by
    rw [np_linalg_norm_eq, hN]
    norm_num
  have dAB : get_distance (scnA sw).pos (scnB d sw).pos = d := by
    rw [get_distance_eq]
    rw [show ((scnB d sw).pos.1 - (scnA sw).pos.1) ^ 2 +
        ((scnB d sw).pos.2 - (scnA sw).pos.2) ^ 2 = d ^ 2 from by
      simp [scnA, scnB]]
    exact Real.sqrt_sq hd0.le
  -- the first mover's step
  have hnA : get_neighbors [scnA sw, scnB d sw] (scnA sw).pos (scnA sw).vision
      false = [scnB d sw] := by
    refine get_neighbors_pair_second _ _ _ _ ?_ ?_ ?_
    · rw [get_distance_self]; simp
    · rw [dAB]; show d ≤ (10 : ℝ); linarith
    · rw [dAB]; exact hd0
  have hcA : (scnA sw).combinedVelocity (get_neighbors [scnA sw, scnB d sw]
      (scnA sw).pos (scnA sw).vision false) = (-(sw * d / 2), 1) := by
    rw [hnA, combined_one_neighbor _ _ rfl rfl,
      if_pos (by rw [dAB]; show d < (2 : ℝ); linarith)]
    simp only [scnA, scnB, vadd, vsub, vdiv, vsmul, Prod.mk.injEq]
    constructor <;> ring
  have hokA : ¬ Space.oob ⟨100, 100⟩ (49 - sw * d / 2 / N, 50 + 1 / N) := by
    simp only [Space.oob, not_or, not_lt]
    refine ⟨by linarith, by linarith, by linarith, by linarith⟩
  have hstepA : Fish.step (scnA sw) ⟨100, 100⟩ [scnA sw, scnB d sw] =
      Except.ok (moved (scnA sw) (-(sw * d / 2 / N), 1 / N)
        (49 - sw * d / 2 / N, 50 + 1 / N)) := by
    refine step_formula2 _ _ _ (-(sw * d / 2), 1) _ _ hcA
      (by rw [hNe]; exact hNnz) ?_ ?_ hokA
    · rw [hNe]
      simp only [vdiv, Prod.mk.injEq]
      constructor <;> ring
    · simp only [scnA, vadd, vsmul, Prod.mk.injEq]
      constructor <;> ring
  -- geometry seen by the second mover
  have dBA' : get_distance (scnB d sw).pos (49 - sw * d / 2 / N, 50 + 1 / N) =
      Real.sqrt ((d + sw * d / 2 / N) ^ 2 + (1 / N) ^ 2) := by
    rw [get_distance_eq]
    congr 1
    simp only [scnB]
    ring
  have hq0 : 0 < d + sw * d / 2 / N := by linarith
  have hq3 : d + sw * d / 2 / N < 3 := by linarith
  have hD10 : Real.sqrt ((d + sw * d / 2 / N) ^ 2 + (1 / N) ^ 2) ≤ 10 := by
    rw [show (10 : ℝ) = Real.sqrt 100 from by
      rw [show (100 : ℝ) = 10 ^ 2 by norm_num,
        Real.sqrt_sq (by norm_num : (0 : ℝ) ≤ 10)]]
    exact Real.sqrt_le_sqrt (by nlinarith [hiN0, hiN1])
  have hD0 : 0 < Real.sqrt ((d + sw * d / 2 / N) ^ 2 + (1 / N) ^ 2) := by
    refine Real.sqrt_pos.mpr ?_
    have h2 : 0 < (1 / N) ^ 2 := pow_pos hiN0 2
    nlinarith [sq_nonneg (d + sw * d / 2 / N)]
  have hnB : get_neighbors
      [moved (scnA sw) (-(sw * d / 2 / N), 1 / N) (49 - sw * d / 2 / N, 50 + 1 / N), scnB d sw]
      (scnB d sw).pos (scnB d sw).vision false =
      [moved (scnA sw) (-(sw * d / 2 / N), 1 / N) (49 - sw * d / 2 / N, 50 + 1 / N)] := by
    refine get_neighbors_pair_first _ _ _ _ ?_ ?_ ?_
    · rw [moved_pos, dBA']; show _ ≤ (10 : ℝ); exact hD10
    · rw [moved_pos, dBA']; exact hD0
    · rw [get_distance_self]; simp
  by_cases hrep : Real.sqrt ((d + sw * d / 2 / N) ^ 2 + (1 / N) ^ 2) < 2
  · -- the second mover is repelled as well
    set c2 : Vec2 := (sw * (d + sw * d / 2 / N) / 2, 1 - sw * (1 / N) / 2)
      with hc2
    have hMx : 0 < c2.1 := by
      rw [hc2]
      exact div_pos (mul_pos hsw hq0) two_pos
    have hM0 : 0 < np_linalg_norm c2 :=
      lt_of_lt_of_le hMx ((le_abs_self _).trans (abs_fst_le_norm c2))
    have hMnz : np_linalg_norm c2 ≠ 0 := ne_of_gt hM0
    obtain ⟨hu1, hu2, hu3, hu4⟩ := unit_component_bounds c2 hMnz
    have hcm : 0 < c2.1 / np_linalg_norm c2 := div_pos hMx hM0
    have hcB : (scnB d sw).combinedVelocity (get_neighbors
        [moved (scnA sw) (-(sw * d / 2 / N), 1 / N) (49 - sw * d / 2 / N, 50 + 1 / N), scnB d sw]
        (scnB d sw).pos (scnB d sw).vision false) = c2 := by
      rw [hnB, combined_one_neighbor _ _ rfl rfl, moved_pos,
        if_pos (by rw [dBA']; show _ < (2 : ℝ); exact hrep)]
      rw [hc2]
      simp only [scnB, vadd, vsub, vdiv, vsmul, Prod.mk.injEq]
      constructor <;> ring
    have hokB : ¬ Space.oob ⟨100, 100⟩
        (49 + d + c2.1 / np_linalg_norm c2, 50 + c2.2 / np_linalg_norm c2) := by
      simp only [Space.oob, not_or, not_lt]
      refine ⟨by linarith, by linarith, by linarith, by linarith⟩
    have hstepB : Fish.step (scnB d sw) ⟨100, 100⟩
        [moved (scnA sw) (-(sw * d / 2 / N), 1 / N) (49 - sw * d / 2 / N, 50 + 1 / N), scnB d sw] =
        Except.ok (moved (scnB d sw)
          (c2.1 / np_linalg_norm c2, c2.2 / np_linalg_norm c2)
          (49 + d + c2.1 / np_linalg_norm c2, 50 + c2.2 / np_linalg_norm c2)) := by
      refine step_formula2 _ _ _ c2 _ _ hcB hMnz ?_ ?_ hokB
      · simp only [vdiv]
      · simp only [scnB, vadd, vsmul, Prod.mk.injEq]
        constructor <;> ring
    refine ⟨_, _, schedule_step_pair01 _ _ _ _ _ hstepA hstepB, ?_⟩
    rw [moved_pos, moved_pos]
    have hge : (49 + d + c2.1 / np_linalg_norm c2) - (49 - sw * d / 2 / N) ≤
        get_distance ((49 - sw * d / 2 / N, 50 + 1 / N) : Vec2)
          ((49 + d + c2.1 / np_linalg_norm c2,
            50 + c2.2 / np_linalg_norm c2) : Vec2) :=
      dist_ge_dx ((49 - sw * d / 2 / N, 50 + 1 / N) : Vec2)
        ((49 + d + c2.1 / np_linalg_norm c2,
          50 + c2.2 / np_linalg_norm c2) : Vec2)
    linarith [hge, hcm, hpN0]
  · -- the second mover is outside the separation radius: moves straight up
    have hcB : (scnB d sw).combinedVelocity (get_neighbors
        [moved (scnA sw) (-(sw * d / 2 / N), 1 / N) (49 - sw * d / 2 / N, 50 + 1 / N), scnB d sw]
        (scnB d sw).pos (scnB d sw).vision false) = (0, 1) := by
      rw [hnB, combined_one_neighbor _ _ rfl rfl, moved_pos,
        if_neg (by rw [dBA']; show ¬ _ < (2 : ℝ); exact hrep)]
      simp only [scnB, vadd, vdiv, vsmul, Prod.mk.injEq]
      norm_num
    have hokB : ¬ Space.oob ⟨100, 100⟩ (49 + d, 51) := by
      simp only [Space.oob, not_or, not_lt]
      refine ⟨by linarith, by linarith, by linarith, by linarith⟩
    have hstepB : Fish.step (scnB d sw) ⟨100, 100⟩
        [moved (scnA sw) (-(sw * d / 2 / N), 1 / N) (49 - sw * d / 2 / N, 50 + 1 / N), scnB d sw] =
        Except.ok (moved (scnB d sw) (0, 1) (49 + d, 51)) := by
      refine step_formula2 _ _ _ (0, 1) _ _ hcB
        (by rw [norm_up_one]; norm_num) ?_ ?_ hokB
      · rw [norm_up_one]
        simp only [vdiv, Prod.mk.injEq]
        norm_num
      · simp only [scnB, vadd, vsmul, Prod.mk.injEq]
        norm_num
    refine ⟨_, _, schedule_step_pair01 _ _ _ _ _ hstepA hstepB, ?_⟩
    rw [moved_pos, moved_pos]
    have hge : ((49 : ℝ) + d) - (49 - sw * d / 2 / N) ≤
        get_distance ((49 - sw * d / 2 / N, 50 + 1 / N) : Vec2)
          (((49 : ℝ) + d, (51 : ℝ)) : Vec2) :=
      dist_ge_dx ((49 - sw * d / 2 / N, 50 + 1 / N) : Vec2)
        (((49 : ℝ) + d, (51 : ℝ)) : Vec2)
    linarith [hge, hpN0]

/-- Scenario B with the right agent activated first: the distance strictly
increases. -/
theorem C9aux10 (d sw : ℝ) (hd0 : 0 < d) (hd2 : d < 2) (hsw : 0 < sw) :
    ∃ fa fb : Fish,
      schedule_step ⟨100, 100⟩ [scnA sw, scnB d sw] [1, 0] = Except.ok [fa, fb] ∧
      d < get_distance fa.pos fb.pos := by
  have hp : 0 < sw * d / 2 := by positivity
  set N := Real.sqrt ((sw * d / 2) ^ 2 + 1) with hN
  have hN1 : 1 ≤ N := by
    rw [hN]
    calc (1 : ℝ) = Real.sqrt 1 := Real.sqrt_one.symm
      _ ≤ _ := Real.sqrt_le_sqrt (by nlinarith)
  have hN0 : 0 < N := lt_of_lt_of_le one_pos hN1
  have hNnz : N ≠ 0 := ne_of_gt hN0
  have hpN1 : sw * d / 2 / N < 1 := by
    rw [div_lt_one hN0, hN]
    calc sw * d / 2 = Real.sqrt ((sw * d / 2) ^ 2) := (Real.sqrt_sq hp.le).symm
      _ < _ := Real.sqrt_lt_sqrt (sq_nonneg _) (by nlinarith)
  have hpN0 : 0 < sw * d / 2 / N := div_pos hp hN0
  have hiN1 : 1 / N ≤ 1 := by rw [div_le_one hN0]; exact hN1
  have hiN0 : 0 < 1 / N := by positivity
  have hNe2 : np_linalg_norm (sw * d / 2, 1) = N := by
    rw [np_linalg_norm_eq, hN]
    norm_num
  have dBA : get_distance (scnB d sw).pos (scnA sw).pos = d := by
    rw [get_distance_eq]
    rw [show ((scnA sw).pos.1 - (scnB d sw).pos.1) ^ 2 +
        ((scnA sw).pos.2 - (scnB d sw).pos.2) ^ 2 = d ^ 2 from by
      simp [scnA, scnB]]
    exact Real.sqrt_sq hd0.le
  -- the right agent moves first
  have hnB0 : get_neighbors [scnA sw, scnB d sw] (scnB d sw).pos
      (scnB d sw).vision false = [scnA sw] := by
    refine get_neighbors_pair_first _ _ _ _ ?_ ?_ ?_
    · rw [dBA]; show d ≤ (10 : ℝ); linarith
    · rw [dBA]; exact hd0
    · rw [get_distance_self]; simp
  have hcB0 : (scnB d sw).combinedVelocity (get_neighbors [scnA sw, scnB d sw]
      (scnB d sw).pos (scnB d sw).vision false) = (sw * d / 2, 1) := by
    rw [hnB0, combined_one_neighbor _ _ rfl rfl,
      if_pos (by rw [dBA]; show d < (2 : ℝ); linarith)]
    simp only [scnA, scnB, vadd, vsub, vdiv, vsmul, Prod.mk.injEq]
    constructor <;> ring
  have hokB0 : ¬ Space.oob ⟨100, 100⟩ (49 + d + sw * d / 2 / N, 50 + 1 / N) := by
    simp only [Space.oob, not_or, not_lt]
    refine ⟨by linarith, by linarith, by linarith, by linarith⟩
  have hstepB0 : Fish.step (scnB d sw) ⟨100, 100⟩ [scnA sw, scnB d sw] =
      Except.ok (moved (scnB d sw) (sw * d / 2 / N, 1 / N)
        (49 + d + sw * d / 2 / N, 50 + 1 / N)) := by
    refine step_formula2 _ _ _ (sw * d / 2, 1) _ _ hcB0
      (by rw [hNe2]; exact hNnz) ?_ ?_ hokB0
    · rw [hNe2]
      simp only [vdiv, Prod.mk.injEq]
    · simp only [scnB, vadd, vsmul, Prod.mk.injEq]
      constructor <;> ring
  -- geometry seen by the left agent after the move
  have dAB' : get_distance (scnA sw).pos (49 + d + sw * d / 2 / N, 50 + 1 / N) =
      Real.sqrt ((d + sw * d / 2 / N) ^ 2 + (1 / N) ^ 2) := by
    rw [get_distance_eq]
    congr 1
    simp only [scnA]
    ring
  have hq0 : 0 < d + sw * d / 2 / N := by linarith
  have hq3 : d + sw * d / 2 / N < 3 := by linarith
  have hD10 : Real.sqrt ((d + sw * d / 2 / N) ^ 2 + (1 / N) ^ 2) ≤ 10 := by
    rw [show (10 : ℝ) = Real.sqrt 100 from by
      rw [show (100 : ℝ) = 10 ^ 2 by norm_num,
        Real.sqrt_sq (by norm_num : (0 : ℝ) ≤ 10)]]
    exact Real.sqrt_le_sqrt (by nlinarith [hiN0, hiN1])
  have hD0 : 0 < Real.sqrt ((d + sw * d / 2 / N) ^ 2 + (1 / N) ^ 2) := by
    refine Real.sqrt_pos.mpr ?_
    have h2 : 0 < (1 / N) ^ 2 := pow_pos hiN0 2
    nlinarith [sq_nonneg (d + sw * d / 2 / N)]
  have hnA0 : get_neighbors
      [scnA sw, moved (scnB d sw) (sw * d / 2 / N, 1 / N)
        (49 + d + sw * d / 2 / N, 50 + 1 / N)]
      (scnA sw).pos (scnA sw).vision false =
      [moved (scnB d sw) (sw * d / 2 / N, 1 / N)
        (49 + d + sw * d / 2 / N, 50 + 1 / N)] := by
    refine get_neighbors_pair_second _ _ _ _ ?_ ?_ ?_
    · rw [get_distance_self]; simp
    · rw [moved_pos, dAB']; show _ ≤ (10 : ℝ); exact hD10
    · rw [moved_pos, dAB']; exact hD0
  by_cases hrep : Real.sqrt ((d + sw * d / 2 / N) ^ 2 + (1 / N) ^ 2) < 2
  · -- the left agent is repelled as well
    set c3 : Vec2 := (-(sw * (d + sw * d / 2 / N) / 2), 1 - sw * (1 / N) / 2)
      with hc3
    have hMx : c3.1 < 0 := by
      rw [hc3]
      exact neg_lt_zero.mpr (div_pos (mul_pos hsw hq0) two_pos)
    have hM0 : 0 < np_linalg_norm c3 :=
      lt_of_lt_of_le (abs_pos.mpr (ne_of_lt hMx)) (abs_fst_le_norm c3)
    have hMnz : np_linalg_norm c3 ≠ 0 := ne_of_gt hM0
    obtain ⟨hu1, hu2, hu3, hu4⟩ := unit_component_bounds c3 hMnz
    have hcm3 : c3.1 / np_linalg_norm c3 < 0 := div_neg_of_neg_of_pos hMx hM0
    have hcA0 : (scnA sw).combinedVelocity (get_neighbors
        [scnA sw, moved (scnB d sw) (sw * d / 2 / N, 1 / N)
          (49 + d + sw * d / 2 / N, 50 + 1 / N)]
        (scnA sw).pos (scnA sw).vision false) = c3 := by
      rw [hnA0, combined_one_neighbor _ _ rfl rfl, moved_pos,
        if_pos (by rw [dAB']; show _ < (2 : ℝ); exact hrep)]
      rw [hc3]
      simp only [scnA, vadd, vsub, vdiv, vsmul, Prod.mk.injEq]
      constructor <;> ring
    have hokA0 : ¬ Space.oob ⟨100, 100⟩
        (49 + c3.1 / np_linalg_norm c3, 50 + c3.2 / np_linalg_norm c3) := by
      simp only [Space.oob, not_or, not_lt]
      refine ⟨by linarith, by linarith, by linarith, by linarith⟩
    have hstepA0 : Fish.step (scnA sw) ⟨100, 100⟩
        [scnA sw, moved (scnB d sw) (sw * d / 2 / N, 1 / N)
          (49 + d + sw * d / 2 / N, 50 + 1 / N)] =
        Except.ok (moved (scnA sw)
          (c3.1 / np_linalg_norm c3, c3.2 / np_linalg_norm c3)
          (49 + c3.1 / np_linalg_norm c3, 50 + c3.2 / np_linalg_norm c3)) := by
      refine step_formula2 _ _ _ c3 _ _ hcA0 hMnz ?_ ?_ hokA0
      · simp only [vdiv]
      · simp only [scnA, vadd, vsmul, Prod.mk.injEq]
        constructor <;> ring
    refine ⟨_, _, schedule_step_pair10 _ _ _ _ _ hstepB0 hstepA0, ?_⟩
    rw [moved_pos, moved_pos]
    have hge : (49 + d + sw * d / 2 / N) -
        (49 + c3.1 / np_linalg_norm c3) ≤
        get_distance
          ((49 + c3.1 / np_linalg_norm c3,
            50 + c3.2 / np_linalg_norm c3) : Vec2)
          ((49 + d + sw * d / 2 / N, 50 + 1 / N) : Vec2) :=
      dist_ge_dx ((49 + c3.1 / np_linalg_norm c3,
          50 + c3.2 / np_linalg_norm c3) : Vec2)
        ((49 + d + sw * d / 2 / N, 50 + 1 / N) : Vec2)
    linarith [hge, hcm3, hpN0]
  · -- the left agent is outside the separation radius: moves straight up
    have hcA0 : (scnA sw).combinedVelocity (get_neighbors
        [scnA sw, moved (scnB d sw) (sw * d / 2 / N, 1 / N)
          (49 + d + sw * d / 2 / N, 50 + 1 / N)]
        (scnA sw).pos (scnA sw).vision false) = (0, 1) := by
      rw [hnA0, combined_one_neighbor _ _ rfl rfl, moved_pos,
        if_neg (by rw [dAB']; show ¬ _ < (2 : ℝ); exact hrep)]
      simp only [scnA, vadd, vdiv, vsmul, Prod.mk.injEq]
      norm_num
    have hokA0 : ¬ Space.oob ⟨100, 100⟩ ((49 : ℝ), (51 : ℝ)) := by
      simp only [Space.oob, not_or, not_lt]
      norm_num
    have hstepA0 : Fish.step (scnA sw) ⟨100, 100⟩
        [scnA sw, moved (scnB d sw) (sw * d / 2 / N, 1 / N)
          (49 + d + sw * d / 2 / N, 50 + 1 / N)] =
        Except.ok (moved (scnA sw) (0, 1) ((49 : ℝ), (51 : ℝ))) := by
      refine step_formula2 _ _ _ (0, 1) _ _ hcA0
        (by rw [norm_up_one]; norm_num) ?_ ?_ hokA0
      · rw [norm_up_one]
        simp only [vdiv, Prod.mk.injEq]
        norm_num
      · simp only [scnA, vadd, vsmul, Prod.mk.injEq]
        norm_num
    refine ⟨_, _, schedule_step_pair10 _ _ _ _ _ hstepB0 hstepA0, ?_⟩
    rw [moved_pos, moved_pos]
    have hge : (49 + d + sw * d / 2 / N) - 49 ≤
        get_distance (((49 : ℝ), (51 : ℝ)) : Vec2)
          ((49 + d + sw * d / 2 / N, 50 + 1 / N) : Vec2) :=
      dist_ge_dx (((49 : ℝ), (51 : ℝ)) : Vec2)
        ((49 + d + sw * d / 2 / N, 50 + 1 / N) : Vec2)
    linarith [hge, hpN0]

/-- The initial distance of the scenario-B agents. -/
theorem scn_dist (d sw : ℝ) (hd0 : 0 < d) :
    get_distance (scnA sw).pos (scnB d sw).pos = d := by
  rw [get_distance_eq]
  rw [show ((scnB d sw).pos.1 - (scnA sw).pos.1) ^ 2 +
      ((scnB d sw).pos.2 - (scnA sw).pos.2) ^ 2 = d ^ 2 from by
    simp [scnA, scnB]]
  exact Real.sqrt_sq hd0.le

/-- C9 (amended): two agents placed strictly closer than `separation` (rather
than exactly `separation` apart), with identical unit velocities, cohere and
match weights `0` and separate weight `sw > 0`, set well inside the domain:
after one full stepping pass, in either activation order, the Euclidean distance
between them strictly increases (pure repulsion).  At exactly `separation` the
strict `<` of the separate rule yields no repulsion (see the counterexample). -/
theorem C9_strict_repulsion (d sw : ℝ) (hd0 : 0 < d) (hd2 : d < 2) (hsw : 0 < sw)
    (order : List ℕ) (horder : order = [0, 1] ∨ order = [1, 0]) :
    get_distance (scnA sw).pos (scnB d sw).pos = d ∧
    ∃ fa fb : Fish,
      schedule_step ⟨100, 100⟩ [scnA sw, scnB d sw] order = Except.ok [fa, fb] ∧
      get_distance (scnA sw).pos (scnB d sw).pos < get_distance fa.pos fb.pos := by
  refine ⟨scn_dist d sw hd0, ?_⟩
  rcases horder with h | h <;> subst h
  · obtain ⟨fa, fb, hs, hlt⟩ := C9aux01 d sw hd0 hd2 hsw
    exact ⟨fa, fb, hs, by rw [scn_dist d sw hd0]; exact hlt⟩
  · obtain ⟨fa, fb, hs, hlt⟩ := C9aux10 d sw hd0 hd2 hsw
    exact ⟨fa, fb, hs, by rw [scn_dist d sw hd0]; exact hlt⟩

/-- Witness for the amended C9 at distance 1, separate weight 1/4, list order. -/
theorem C9_witness :
    get_distance (scnA (1/4)).pos (scnB 1 (1/4)).pos = 1 ∧
    ∃ fa fb : Fish,
      schedule_step ⟨100, 100⟩ [scnA (1/4), scnB 1 (1/4)] [0, 1] =
        Except.ok [fa, fb] ∧
      get_distance (scnA (1/4)).pos (scnB 1 (1/4)).pos <
        get_distance fa.pos fb.pos :=
  C9_strict_repulsion 1 (1/4) (by norm_num) (by norm_num) (by norm_num) [0, 1]
    (Or.inl rfl)

end Shoal
